import Mathlib

/-!
FossoresLP/decimal: the Decimal type of `decimal.go`.

A shallow embedding of the fixed-point `Decimal` type and of its text, constructor and
scalar-arithmetic operations, followed by the properties proved about them.

Conventions of the embedding.

* `uint64` fields are natural numbers, every arithmetic result reduced `% 2 ^ 64`; the
  `uint8` field `Digits` is a natural number, increments and decrements reduced `% 256`.
* A Go `string` is a sequence of bytes: `List Nat`, each byte its numeric value
  (`'0'` is 48, `'9'` is 57, `'.'` is 46, `'-'` is 45).
* An operation that can end in a Go run-time panic (index out of range, integer division
  by zero) returns `Option`; `none` is the panic.
* A `for` loop whose trip count depends on the data is a function recursive on a fuel
  argument; it returns `none` when the fuel is used up, and the theorems show, on the inputs
  they cover, that the loop ends before the fuel handed over by the caller is used up.
* `float64` arithmetic is a parameter (`Float64Ops`): the functions that use it are stated
  for every interpretation of the operations, binary64 included.
* `FromStringFuzzy` is declared in no source file at hand; its definitions follow the
  specification and say so.
-/

/-- Bytes of an ASCII literal, used to write expected texts readably. -/
def bytes (s : String) : List Nat := s.toList.map Char.toNat

/-- Go `type Decimal struct { Negative bool; Integer uint64; Fraction uint64; Digits uint8 }`. -/
structure Decimal where
  Negative : Bool
  Integer : Nat
  Fraction : Nat
  Digits : Nat
deriving DecidableEq, Repr

namespace Decimal

/-- Go `var pow10 = [20]uint64{1, 10, ..., 10000000000000000000}`. -/
def pow10 : List Nat :=
  [1, 10, 100, 1000, 10000, 100000, 1000000, 10000000, 100000000, 1000000000,
   10000000000, 100000000000, 1000000000000, 10000000000000, 100000000000000,
   1000000000000000, 10000000000000000, 100000000000000000, 1000000000000000000,
   10000000000000000000]

/-! ## String -/

/-- Go `arr[pos] = b` on a fixed array: a panic when `pos` is outside the array. -/
def setByte (arr : List Nat) (pos : Int) (b : Nat) : Option (List Nat) :=
  if 0 ≤ pos ∧ pos < (arr.length : Int) then some (arr.set pos.toNat b) else none

/-- Go `string(arr[pos:])`: a panic when `pos` is negative or beyond the array's length. -/
def sliceFrom (arr : List Nat) (pos : Int) : Option (List Nat) :=
  if 0 ≤ pos ∧ pos ≤ (arr.length : Int) then some (arr.drop pos.toNat) else none

/-- Loop `for ; pos > end; pos-- { arr[pos] = byte(frac%10) + '0'; frac /= 10 }` of `String`. -/
def String.fracLoop : Nat → List Nat → Int → Nat → Int → Option (List Nat × Int)
  | 0, _, _, _, _ => none
  | fuel + 1, arr, pos, frac, end_ =>
    if pos > end_ then
      match setByte arr pos (frac % 10 + 48) with
      | none => none
      | some arr1 => String.fracLoop fuel arr1 (pos - 1) (frac / 10) end_
    else some (arr, pos)

/-- Loop `for n := d.Integer; n > 0; n /= 10 { arr[pos] = byte(n%10) + '0'; pos-- }` of
`String`. -/
def String.intLoop : Nat → List Nat → Int → Nat → Option (List Nat × Int)
  | 0, _, _, _ => none
  | fuel + 1, arr, pos, n =>
    if n > 0 then
      match setByte arr pos (n % 10 + 48) with
      | none => none
      | some arr1 => String.intLoop fuel arr1 (pos - 1) (n / 10)
    else some (arr, pos)

/-- The block `if d.Digits > 0 { ... }` of `String`: fraction digits, then the dot. -/
def String.fracPart (d : Decimal) (arr : List Nat) (pos : Int) : Option (List Nat × Int) :=
  if d.Digits > 0 then
    match String.fracLoop 256 arr pos d.Fraction (47 - (d.Digits : Int)) with
    | none => none
    | some (arr1, pos1) =>
      match setByte arr1 pos1 46 with
      | none => none
      | some arr2 => some (arr2, pos1 - 1)
  else some (arr, pos)

/-- The block `if d.Integer == 0 { ... } else { ... }` of `String`. -/
def String.intPart (d : Decimal) (arr : List Nat) (pos : Int) : Option (List Nat × Int) :=
  if d.Integer = 0 then
    match setByte arr pos 48 with
    | none => none
    | some arr1 => some (arr1, pos - 1)
  else String.intLoop 64 arr pos d.Integer

/-- The block `if d.Negative { arr[pos] = '-' } else { pos++ }; return string(arr[pos:])`. -/
def String.signPart (d : Decimal) (arr : List Nat) (pos : Int) : Option (List Nat) :=
  if d.Negative then
    match setByte arr pos 45 with
    | none => none
    | some arr1 => sliceFrom arr1 pos
  else sliceFrom arr (pos + 1)

/-- Go `func (d Decimal) String() string`. The buffer is `[48]byte{}`, `pos` starts at 47. -/
def String (d : Decimal) : Option (List Nat) :=
  match String.fracPart d (List.replicate 48 0) 47 with
  | none => none
  | some (arr1, pos1) =>
    match String.intPart d arr1 pos1 with
    | none => none
    | some (arr2, pos2) => String.signPart d arr2 pos2

/-! ## FromString -/

/-- The two errors of `FromString`, each carrying the suffix `s[pos:]` it prints:
`fmt.Errorf("invalid character in integer: %s", s[pos:])` and
`fmt.Errorf("invalid character in fraction: %s", s[pos:])`. -/
inductive ParseError where
  | integer (suffix : List Nat)
  | fraction (suffix : List Nat)
deriving DecidableEq, Repr

/-- The suffix `s[pos:]` an error of `FromString` carries. -/
def ParseError.suffix : ParseError → List Nat
  | ParseError.integer t => t
  | ParseError.fraction t => t

/-- Loop `fracloop:` of `FromString`, on the unread suffix `s[pos:]`. -/
def FromString.fracloop (d : Decimal) : List Nat → Decimal × Option ParseError
  | [] => (d, none)
  | b :: rest =>
    if 48 ≤ b ∧ b ≤ 57 then
      FromString.fracloop
        { d with Digits := (d.Digits + 1) % 256,
                 Fraction := (d.Fraction * 10 + (b - 48)) % 2 ^ 64 } rest
    else (d, some (ParseError.fraction (b :: rest)))

/-- First loop of `FromString` (the integer part), on the unread suffix `s[pos:]`. -/
def FromString.intloop (d : Decimal) : List Nat → Decimal × Option ParseError
  | [] => (d, none)
  | b :: rest =>
    if 48 ≤ b ∧ b ≤ 57 then
      FromString.intloop { d with Integer := (d.Integer * 10 + (b - 48)) % 2 ^ 64 } rest
    else if b = 46 then FromString.fracloop d rest
    else (d, some (ParseError.integer (b :: rest)))

/-- Go `func (d *Decimal) FromString(s string) error`: the receiver after the call and the
error (`none` is `nil`). The receiver's previous contents are overwritten first. -/
def FromString (_d : Decimal) (s : List Nat) : Decimal × Option ParseError :=
  let d0 : Decimal := { Negative := false, Integer := 0, Fraction := 0, Digits := 0 }
  match s with
  | [] => (d0, none)
  | b :: rest =>
    if b = 45 then FromString.intloop { d0 with Negative := true } rest
    else FromString.intloop d0 (b :: rest)

/-! ## New -/

/-- Width in bits of Go's `int` and `uint` on the 64-bit platforms. -/
def intSize : Nat := 64

/-- The integer arguments of the generic `New[N Number]`, one constructor per case of its
type switch; a signed value is an `Int` within the range of its type. The two floating-point
cases, which call `FromFloat64`, are not part of this embedding. -/
inductive Number where
  | uint (v : Nat)
  | uint8 (v : Nat)
  | uint16 (v : Nat)
  | uint32 (v : Nat)
  | uint64 (v : Nat)
  | int (v : Int)
  | int8 (v : Int)
  | int16 (v : Int)
  | int32 (v : Int)
  | int64 (v : Int)
deriving DecidableEq, Repr

/-- Result of an arithmetic operation in a signed type of `w` bits (two's complement). -/
def wrapSigned (w : Nat) (x : Int) : Int := (x + 2 ^ (w - 1)) % 2 ^ w - 2 ^ (w - 1)

/-- Go conversion `uint64(v)` of a signed value: sign extension, then reinterpretation. -/
def toUint64 (v : Int) : Nat := (v % 2 ^ 64).toNat

/-- The body shared by the signed cases of `New`:
`if v < 0 { d.Negative = true; v = -v }; d.Integer = uint64(v)`, in a type of `w` bits. -/
def New.signed (w : Nat) (v : Int) : Decimal :=
  if v < 0 then
    { Negative := true, Integer := toUint64 (wrapSigned w (-v)), Fraction := 0, Digits := 0 }
  else { Negative := false, Integer := toUint64 v, Fraction := 0, Digits := 0 }

/-- The body shared by the unsigned cases of `New`: `d.Integer = uint64(v)`. -/
def New.unsigned (v : Nat) : Decimal :=
  { Negative := false, Integer := v % 2 ^ 64, Fraction := 0, Digits := 0 }

/-- Go `func New[N Number](value N) *Decimal`, integer cases. -/
def New : Number → Decimal
  | Number.uint v => New.unsigned v
  | Number.uint8 v => New.unsigned v
  | Number.uint16 v => New.unsigned v
  | Number.uint32 v => New.unsigned v
  | Number.uint64 v => New.unsigned v
  | Number.int v => New.signed intSize v
  | Number.int8 v => New.signed 8 v
  | Number.int16 v => New.signed 16 v
  | Number.int32 v => New.signed 32 v
  | Number.int64 v => New.signed 64 v

/-- The values a `Number` can hold: each within the range of its Go type. -/
def Number.InRange : Number → Prop
  | Number.uint v => v < 2 ^ intSize
  | Number.uint8 v => v < 2 ^ 8
  | Number.uint16 v => v < 2 ^ 16
  | Number.uint32 v => v < 2 ^ 32
  | Number.uint64 v => v < 2 ^ 64
  | Number.int v => -2 ^ (intSize - 1) ≤ v ∧ v < 2 ^ (intSize - 1)
  | Number.int8 v => -2 ^ 7 ≤ v ∧ v < 2 ^ 7
  | Number.int16 v => -2 ^ 15 ≤ v ∧ v < 2 ^ 15
  | Number.int32 v => -2 ^ 31 ≤ v ∧ v < 2 ^ 31
  | Number.int64 v => -2 ^ 63 ≤ v ∧ v < 2 ^ 63

/-! ## Scalar arithmetic -/

/-- Go `func (d *Decimal) MultiplyUint64(u uint64) *Decimal`; `none` when `pow10[d.Digits]`
is out of range. -/
def MultiplyUint64 (d : Decimal) (u : Nat) : Option Decimal :=
  let i1 := d.Integer * u % 2 ^ 64
  let f1 := d.Fraction * u % 2 ^ 64
  match pow10[d.Digits]? with
  | none => none
  | some p => some { d with Integer := (i1 + f1 / p) % 2 ^ 64, Fraction := f1 % p }

/-- Go `func (d *Decimal) DivideUint64(u uint64) *Decimal`; `none` when `u` is 0 (integer
division by zero) or `pow10[d.Digits]` is out of range. -/
def DivideUint64 (d : Decimal) (u : Nat) : Option Decimal :=
  if u = 0 then none
  else
    match pow10[d.Digits]? with
    | none => none
    | some p =>
      let f1 := (d.Fraction + d.Integer % u * p % 2 ^ 64) % 2 ^ 64
      some { d with Integer := d.Integer / u, Fraction := f1 / u }

/-- Loop `for ; d.Digits < digits; d.Digits++ { d.Fraction *= 10 }` of `ToDigits`. -/
def ToDigits.grow : Nat → Decimal → Nat → Option Decimal
  | 0, _, _ => none
  | fuel + 1, d, digits =>
    if d.Digits < digits then
      ToDigits.grow fuel
        { d with Fraction := d.Fraction * 10 % 2 ^ 64, Digits := (d.Digits + 1) % 256 } digits
    else some d

/-- Loop `for ; d.Digits > digits; d.Digits-- { d.Fraction /= 10 }` of `ToDigits`. -/
def ToDigits.shrink : Nat → Decimal → Nat → Option Decimal
  | 0, _, _ => none
  | fuel + 1, d, digits =>
    if d.Digits > digits then
      ToDigits.shrink fuel
        { d with Fraction := d.Fraction / 10, Digits := (d.Digits + 255) % 256 } digits
    else some d

/-- Go `func (d *Decimal) ToDigits(digits uint8) *Decimal`. -/
def ToDigits (d : Decimal) (digits : Nat) : Option Decimal :=
  match ToDigits.grow 256 d digits with
  | none => none
  | some d1 => ToDigits.shrink 256 d1 digits

/-! ## Floating point -/

/-- The operations of Go's `float64` that the code uses: `<`, `==`, the constants `0` and
`10`, unary minus, `+`, `-`, `*`, `/`, `math.Abs`, `math.Round`, the conversion `float64(n)`
of a `uint64` and the conversion `uint64(f)`. The embedding is parametric in them: what is
proved for every `Float64Ops` holds for IEEE 754 binary64 arithmetic in particular. -/
structure Float64Ops (F : Type) where
  lt : F → F → Bool
  eq : F → F → Bool
  zero : F
  ten : F
  neg : F → F
  add : F → F → F
  sub : F → F → F
  mul : F → F → F
  div : F → F → F
  abs : F → F
  round : F → F
  ofUint64 : Nat → F
  toUint64 : F → Nat

/-- Binary64 arithmetic, as provided by the `Float` type. -/
def binary64 : Float64Ops Float where
  lt := fun a b => decide (a < b)
  eq := fun a b => a == b
  zero := 0
  ten := 10
  neg := fun a => -a
  add := fun a b => a + b
  sub := fun a b => a - b
  mul := fun a b => a * b
  div := fun a b => a / b
  abs := Float.abs
  round := Float.round
  ofUint64 := Float.ofNat
  toUint64 := fun a => a.toUInt64.toNat

/-- Go `func (d Decimal) Float64() float64`; `none` when `pow10[d.Digits]` is out of range. -/
def Float64 {F : Type} (ops : Float64Ops F) (d : Decimal) : Option F :=
  match pow10[d.Digits]? with
  | none => none
  | some p =>
    if d.Negative then
      some (ops.sub (ops.neg (ops.ofUint64 d.Integer))
        (ops.div (ops.ofUint64 d.Fraction) (ops.ofUint64 p)))
    else
      some (ops.add (ops.ofUint64 d.Integer)
        (ops.div (ops.ofUint64 d.Fraction) (ops.ofUint64 p)))

/-- Loop `for i := 0; i < maxDigits; i++ { fraction *= 10; digits++; if fraction ==
math.Round(fraction) { break } }` of `FromFloat64`; the first argument is the number of
iterations left, `maxDigits - i`. -/
def FromFloat64.loop {F : Type} (ops : Float64Ops F) : Nat → F → Nat → F × Nat
  | 0, fraction, digits => (fraction, digits)
  | n + 1, fraction, digits =>
    if ops.eq (ops.mul fraction ops.ten) (ops.round (ops.mul fraction ops.ten)) then
      (ops.mul fraction ops.ten, (digits + 1) % 256)
    else FromFloat64.loop ops n (ops.mul fraction ops.ten) ((digits + 1) % 256)

/-- Go `func (d *Decimal) FromFloat64(f float64)`: the receiver after the call. `Negative` is
assigned only in the branch `f < 0`. -/
def FromFloat64 {F : Type} (ops : Float64Ops F) (d : Decimal) (f : F) : Decimal :=
  let f1 := if ops.lt f ops.zero then ops.neg f else f
  let integer := ops.toUint64 f1 % 2 ^ 64
  let r := FromFloat64.loop ops 18 (ops.abs (ops.sub f1 (ops.ofUint64 integer))) 0
  { Negative := if ops.lt f ops.zero then true else d.Negative,
    Integer := integer,
    Fraction := ops.toUint64 r.1 % 2 ^ 64,
    Digits := r.2 }

/-- The value of `fraction` when the loop of `FromFloat64` starts:
`math.Abs(f - float64(d.Integer))`, with `f` already negated when it was below zero. -/
def FromFloat64.fraction {F : Type} (ops : Float64Ops F) (f : F) : F :=
  ops.abs (ops.sub (if ops.lt f ops.zero then ops.neg f else f)
    (ops.ofUint64 (ops.toUint64 (if ops.lt f ops.zero then ops.neg f else f) % 2 ^ 64)))

/-- Exact arithmetic on the rationals: an interpretation of the `float64` operations that
agrees with binary64 wherever every operand and result is representable. `round` is
`math.Round` (half away from zero), `toUint64` truncates. It serves to evaluate the functions
on such inputs. -/
def exactOps : Float64Ops ℚ where
  lt := fun a b => decide (a < b)
  eq := fun a b => decide (a = b)
  zero := 0
  ten := 10
  neg := fun a => -a
  add := fun a b => a + b
  sub := fun a b => a - b
  mul := fun a b => a * b
  div := fun a b => a / b
  abs := fun a => |a|
  round := fun a => if 0 ≤ a then ((⌊a + 1 / 2⌋ : Int) : ℚ) else ((⌈a - 1 / 2⌉ : Int) : ℚ)
  ofUint64 := fun n => (n : ℚ)
  toUint64 := fun a => (⌊a⌋ : Int).toNat

/-! ## Scan and JSON -/

/-- The dynamic value handed to `Scan`, by the cases of its type switch: `nil`, `[]byte`,
`string`, `float64`, `int64`, `uint64`, and any value of another type, which carries the name
of its type (what `%T` prints). -/
inductive Value (F : Type) where
  | nil
  | bytes (v : List Nat)
  | string (v : List Nat)
  | float64 (v : F)
  | int64 (v : Int)
  | uint64 (v : Nat)
  | other (typeName : List Nat)

/-- The errors of `Scan`: the error of `FromString`, or
`fmt.Errorf("invalid type for Decimal: %T", value)`. -/
inductive ScanError where
  | parse (e : ParseError)
  | invalidType (typeName : List Nat)
deriving DecidableEq, Repr

/-- Go `func (d *Decimal) Scan(value interface{}) error`: the receiver after the call and
the error. In the `int64` case `Negative` is assigned only in the branch `v < 0`; in the
`uint64` case it is not assigned. -/
def Scan {F : Type} (ops : Float64Ops F) (d : Decimal) : Value F → Decimal × Option ScanError
  | Value.nil => (d, none)
  | Value.bytes v => ((FromString d v).1, (FromString d v).2.map ScanError.parse)
  | Value.string v => ((FromString d v).1, (FromString d v).2.map ScanError.parse)
  | Value.float64 v => (FromFloat64 ops d v, none)
  | Value.int64 v =>
    if v < 0 then
      ({ Negative := true, Integer := toUint64 (wrapSigned 64 (-v)), Fraction := 0,
         Digits := 0 }, none)
    else ({ Negative := d.Negative, Integer := toUint64 v, Fraction := 0, Digits := 0 }, none)
  | Value.uint64 v =>
    ({ Negative := d.Negative, Integer := v, Fraction := 0, Digits := 0 }, none)
  | Value.other t => (d, some (ScanError.invalidType t))

/-- Go `func (d Decimal) MarshalJSON() ([]byte, error)`: the bytes of `d.String()` and the
error, which is always `nil`; `none` when `String` panics. -/
def MarshalJSON (d : Decimal) : Option (List Nat × Option ParseError) :=
  match String d with
  | none => none
  | some s => some (s, none)

/-- The test `len(data) >= 2 && data[0] == '"' && data[len(data)-1] == '"'` of
`UnmarshalJSON`. -/
def UnmarshalJSON.quoted (data : List Nat) : Bool :=
  decide (2 ≤ data.length ∧ data[0]? = some 34 ∧ data[data.length - 1]? = some 34)

/-- Go `func (d *Decimal) UnmarshalJSON(data []byte) error`: one pair of surrounding quotes is
removed (`data[1 : len(data)-1]`), then `FromString` runs. -/
def UnmarshalJSON (d : Decimal) (data : List Nat) : Decimal × Option ParseError :=
  if UnmarshalJSON.quoted data then FromString d ((data.drop 1).take (data.length - 2))
  else FromString d data

/-! ## FromStringFuzzy -/

/-- Modelled from the spec: `FromStringFuzzy` is declared in no file under `src/` (only its
tests are there). This is the test "a byte is an ASCII digit" used to find the numeric
substring. -/
def FromStringFuzzy.isDigit (b : Nat) : Bool := decide (48 ≤ b ∧ b ≤ 57)

/-- Modelled from the spec: `FromStringFuzzy` is declared in no file under `src/`. The input
with its optional sign removed. -/
def FromStringFuzzy.dropSign : List Nat → List Nat
  | 45 :: rest => rest
  | s => s

/-- Modelled from the spec: `FromStringFuzzy` is declared in no file under `src/`. The input
with its optional dot removed. -/
def FromStringFuzzy.dropDot : List Nat → List Nat
  | 46 :: rest => rest
  | s => s

/-- Modelled from the spec: `FromStringFuzzy` is declared in no file under `src/`. Whether a
decimal-number substring (optional sign, digits, optional dot, digits, with at least one
digit) starts at the head of the input: after the optional sign and the optional dot comes a
digit. -/
def FromStringFuzzy.startsNumber (s : List Nat) : Bool :=
  match FromStringFuzzy.dropDot (FromStringFuzzy.dropSign s) with
  | [] => false
  | b :: _ => FromStringFuzzy.isDigit b

/-- Modelled from the spec: `FromStringFuzzy` is declared in no file under `src/`. The
maximal decimal-number substring at the head of the input: the optional sign, the longest run
of digits, and, when a dot follows, the dot and the longest run of digits after it. -/
def FromStringFuzzy.takeNumber (s : List Nat) : List Nat :=
  (if s.head? = some 45 then [45] else []) ++
    (FromStringFuzzy.dropSign s).takeWhile FromStringFuzzy.isDigit ++
    (match (FromStringFuzzy.dropSign s).dropWhile FromStringFuzzy.isDigit with
     | 46 :: rest => 46 :: rest.takeWhile FromStringFuzzy.isDigit
     | _ => [])

/-- Modelled from the spec: `FromStringFuzzy` is declared in no file under `src/`. The first
maximal decimal-number substring anywhere in the input, empty when there is none. -/
def FromStringFuzzy.locate : List Nat → List Nat
  | [] => []
  | b :: rest =>
    if FromStringFuzzy.startsNumber (b :: rest) then FromStringFuzzy.takeNumber (b :: rest)
    else FromStringFuzzy.locate rest

/-- Modelled from the spec: `FromStringFuzzy` is declared in no file under `src/`. "Same
grammar but tolerant of arbitrary non-numeric prefix and suffix text; it locates the first
maximal decimal-number substring (optional sign, digits, optional-dot, digits) anywhere in the
input and parses that, ignoring everything else. If no numeric substring is found, it is
defined as parsing to zero." -/
def FromStringFuzzy (d : Decimal) (s : List Nat) : Decimal × Option ParseError :=
  FromString d (FromStringFuzzy.locate s)

/-! ## Reference notions taken from the specification -/

/-- Decimal numeral of `n` without leading zeros, `"0"` for 0. -/
def numeral (n : Nat) : List Nat :=
  if n = 0 then [48] else ((Nat.digits 10 n).reverse).map (· + 48)

/-- The format described for `String`: a `-` when the flag is set, the numeral of `Integer`,
and when `Digits > 0` a dot and the numeral of `Fraction` left-padded with zeros to
`Digits` characters. -/
def referenceFormat (d : Decimal) : List Nat :=
  (if d.Negative then [45] else []) ++ numeral d.Integer ++
    (if d.Digits > 0 then 46 :: List.leftpad d.Digits 48 (numeral d.Fraction) else [])

/-- Every byte of the run is an ASCII digit. -/
def DigitRun (l : List Nat) : Prop := ∀ b ∈ l, 48 ≤ b ∧ b ≤ 57

instance (l : List Nat) : Decidable (DigitRun l) := by
  unfold DigitRun; infer_instance

/-- Decimal value of a run of ASCII digits, 0 for the empty run. -/
def decimalValue (l : List Nat) : Nat := Nat.ofDigits 10 ((l.map (· - 48)).reverse)

/-- The part of a text from the dot on: nothing when there is no dot (`none`), the dot and
the run after it otherwise. -/
def fractionText : Option (List Nat) → List Nat
  | none => []
  | some f => 46 :: f

/-- The text `[-]digits[.digits]`: `neg` says whether the `-` is there, `ip` is the run before
the dot, `fp` is `none` without a dot and the run after the dot otherwise. -/
def text (neg : Bool) (ip : List Nat) (fp : Option (List Nat)) : List Nat :=
  (if neg then [45] else []) ++ ip ++ fractionText fp

/-- The grammar of `FromString`: an optional `-` at position 0, then zero or more ASCII
digits, then optionally one `.` followed by zero or more ASCII digits. -/
def InGrammar (s : List Nat) : Prop :=
  ∃ (neg : Bool) (ip : List Nat) (fp : Option (List Nat)),
    DigitRun ip ∧ DigitRun (fp.getD []) ∧ s = text neg ip fp

/-- The `k` low-order decimal digits of `n` as ASCII, most significant first: what the
fraction loop of `String` writes for `k` places. -/
def lowDigits : Nat → Nat → List Nat
  | 0, _ => []
  | k + 1, n => lowDigits k (n / 10) ++ [n % 10 + 48]

/-- The decimal digits of `n` as ASCII, most significant first, empty for 0: what the integer
loop of `String` writes. -/
def digitsOf (n : Nat) : List Nat := ((Nat.digits 10 n).reverse).map (· + 48)

/-- The text `String` returns, in closed form. -/
def render (d : Decimal) : List Nat :=
  text d.Negative (numeral d.Integer)
    (if d.Digits > 0 then some (lowDigits d.Digits d.Fraction) else none)

/-! ## Lemmas on the buffer of `String` -/

theorem pow10_get (n : Nat) (h : n ≤ 19) : pow10[n]? = some (10 ^ n) := by
  interval_cases n <;> rfl

theorem setByte_nat (arr : List Nat) (p b : Nat) (h : p < arr.length) :
    setByte arr (p : Int) b = some (arr.set p b) := by
  unfold setByte
  rw [if_pos ⟨by omega, by omega⟩]
  simp

theorem drop_set_self (arr : List Nat) (p b : Nat) (h : p < arr.length) :
    (arr.set p b).drop p = b :: arr.drop (p + 1) := by
  induction arr generalizing p with
  | nil => simp at h
  | cons a t ih =>
    cases p with
    | zero => simp
    | succ q =>
      simp only [List.length_cons] at h
      simpa using ih q (by omega)

theorem digits_length_le (k : Nat) : ∀ n : Nat, n < 10 ^ k → (Nat.digits 10 n).length ≤ k := by
  induction k with
  | zero =>
    intro n hn
    have : n = 0 := by simpa using hn
    subst this; simp
  | succ k ih =>
    intro n hn
    rcases Nat.eq_zero_or_pos n with h0 | hpos
    · subst h0; simp
    · rw [Nat.digits_def' (by norm_num) hpos]
      have : n / 10 < 10 ^ k := by
        apply Nat.div_lt_of_lt_mul
        rw [pow_succ] at hn; omega
      have := ih _ this
      simp only [List.length_cons]; omega

theorem digitsOf_pos (n : Nat) (h : 0 < n) :
    digitsOf n = digitsOf (n / 10) ++ [n % 10 + 48] := by
  unfold digitsOf
  rw [Nat.digits_def' (by norm_num) h]
  simp

theorem fracLoop_spec (k : Nat) : ∀ (fuel : Nat) (arr : List Nat) (p frac : Nat),
    k < fuel → k ≤ p → p < arr.length →
    ∃ arr1, String.fracLoop fuel arr (p : Int) frac ((p : Int) - (k : Int))
        = some (arr1, ((p - k : Nat) : Int))
      ∧ arr1.length = arr.length
      ∧ arr1.drop (p - k + 1) = lowDigits k frac ++ arr.drop (p + 1) := by
  induction k with
  | zero =>
    intro fuel arr p frac hf _ _
    obtain ⟨f, rfl⟩ : ∃ f, fuel = f + 1 := ⟨fuel - 1, by omega⟩
    refine ⟨arr, ?_, rfl, by simp [lowDigits]⟩
    simp [String.fracLoop]
  | succ k ih =>
    intro fuel arr p frac hf hk hp
    obtain ⟨f, rfl⟩ : ∃ f, fuel = f + 1 := ⟨fuel - 1, by omega⟩
    obtain ⟨q, rfl⟩ : ∃ q, p = q + 1 := ⟨p - 1, by omega⟩
    obtain ⟨arr1, h1, h2, h3⟩ := ih f (arr.set (q + 1) (frac % 10 + 48)) q (frac / 10)
      (by omega) (by omega) (by simp; omega)
    have e3 : q + 1 - (k + 1) = q - k := by omega
    refine ⟨arr1, ?_, by simpa using h2, ?_⟩
    · rw [String.fracLoop, if_pos (by push_cast; omega), setByte_nat _ _ _ hp]
      have e1 : ((q + 1 : Nat) : Int) - 1 = (q : Int) := by push_cast; omega
      have e2 : ((q + 1 : Nat) : Int) - ((k + 1 : Nat) : Int) = (q : Int) - (k : Int) := by
        push_cast; omega
      simp only [e1, e2, e3]
      exact h1
    · rw [e3, h3, drop_set_self _ _ _ hp]
      simp [lowDigits]

theorem intLoop_spec (fuel : Nat) : ∀ (arr : List Nat) (p n : Nat),
    n < 10 ^ fuel → (Nat.digits 10 n).length ≤ p → p < arr.length →
    ∃ arr1, String.intLoop (fuel + 1) arr (p : Int) n
        = some (arr1, ((p - (Nat.digits 10 n).length : Nat) : Int))
      ∧ arr1.length = arr.length
      ∧ arr1.drop (p - (Nat.digits 10 n).length + 1) = digitsOf n ++ arr.drop (p + 1) := by
  induction fuel with
  | zero =>
    intro arr p n hn _ _
    have : n = 0 := by simpa using hn
    subst this
    exact ⟨arr, by simp [String.intLoop], rfl, by simp [digitsOf]⟩
  | succ fuel ih =>
    intro arr p n hn hlen hp
    rcases Nat.eq_zero_or_pos n with h0 | hpos
    · subst h0
      exact ⟨arr, by simp [String.intLoop], rfl, by simp [digitsOf]⟩
    · have hd := Nat.digits_def' (by norm_num : 1 < 10) hpos
      rw [hd] at hlen ⊢
      simp only [List.length_cons] at hlen ⊢
      obtain ⟨q, rfl⟩ : ∃ q, p = q + 1 := ⟨p - 1, by omega⟩
      have hdiv : n / 10 < 10 ^ fuel := by
        apply Nat.div_lt_of_lt_mul
        rw [pow_succ] at hn; omega
      obtain ⟨arr1, h1, h2, h3⟩ := ih (arr.set (q + 1) (n % 10 + 48)) q (n / 10) hdiv
        (by omega) (by simp; omega)
      have e3 : q + 1 - ((Nat.digits 10 (n / 10)).length + 1)
          = q - (Nat.digits 10 (n / 10)).length := by omega
      refine ⟨arr1, ?_, by simpa using h2, ?_⟩
      · rw [String.intLoop, if_pos hpos, setByte_nat _ _ _ hp]
        have e1 : ((q + 1 : Nat) : Int) - 1 = (q : Int) := by push_cast; omega
        simp only [e1, e3]
        exact h1
      · rw [e3, h3, drop_set_self _ _ _ hp, digitsOf_pos n hpos]
        simp

theorem fracPart_spec (d : Decimal) (hD : d.Digits ≤ 20) :
    ∃ (arr : List Nat) (p : Nat),
      String.fracPart d (List.replicate 48 0) 47 = some (arr, (p : Int))
      ∧ arr.length = 48 ∧ 26 ≤ p ∧ p ≤ 47
      ∧ arr.drop (p + 1)
          = (if d.Digits > 0 then 46 :: lowDigits d.Digits d.Fraction else []) := by
  unfold String.fracPart
  by_cases h0 : d.Digits > 0
  · obtain ⟨arr1, h1, h2, h3⟩ := fracLoop_spec d.Digits 256 (List.replicate 48 0) 47
      d.Fraction (by omega) (by omega) (by simp)
    have hlen : arr1.length = 48 := by simpa using h2
    have hp : 47 - d.Digits < arr1.length := by omega
    refine ⟨arr1.set (47 - d.Digits) 46, 47 - d.Digits - 1, ?_, by simpa using hlen,
      by omega, by omega, ?_⟩
    · rw [if_pos h0]
      have e0 : ((47 : Nat) : Int) = 47 := rfl
      rw [e0] at h1
      rw [h1]
      simp only
      rw [setByte_nat _ _ _ hp]
      have e1 : ((47 - d.Digits : Nat) : Int) - 1 = ((47 - d.Digits - 1 : Nat) : Int) := by
        omega
      simp only [e1]
    · rw [if_pos h0]
      have e2 : 47 - d.Digits - 1 + 1 = 47 - d.Digits := by omega
      rw [e2, drop_set_self _ _ _ hp, h3]
      simp
  · refine ⟨List.replicate 48 0, 47, ?_, by simp, by omega, by omega, ?_⟩
    · rw [if_neg h0]; rfl
    · rw [if_neg h0]; simp

theorem numeral_length_le (n : Nat) (h : n < 2 ^ 64) : (Nat.digits 10 n).length ≤ 20 :=
  digits_length_le 20 n (lt_of_lt_of_le h (by norm_num))

theorem intPart_spec (d : Decimal) (arr : List Nat) (p : Nat) (hI : d.Integer < 2 ^ 64)
    (hlen : arr.length = 48) (hp : 26 ≤ p) (hp2 : p ≤ 47) :
    ∃ (arr1 : List Nat) (p1 : Nat),
      String.intPart d arr (p : Int) = some (arr1, (p1 : Int))
      ∧ arr1.length = 48 ∧ p1 ≤ 46
      ∧ arr1.drop (p1 + 1) = numeral d.Integer ++ arr.drop (p + 1) := by
  unfold String.intPart numeral
  have hpl : p < arr.length := by omega
  by_cases h0 : d.Integer = 0
  · refine ⟨arr.set p 48, p - 1, ?_, by simpa using hlen, by omega, ?_⟩
    · rw [if_pos h0, setByte_nat _ _ _ hpl]
      have e1 : (p : Int) - 1 = ((p - 1 : Nat) : Int) := by omega
      simp only [e1]
    · rw [if_pos h0]
      have e2 : p - 1 + 1 = p := by omega
      rw [e2, drop_set_self _ _ _ hpl]
      simp
  · have hL := numeral_length_le d.Integer hI
    have hL1 : 1 ≤ (Nat.digits 10 d.Integer).length := by
      rw [Nat.digits_def' (by norm_num) (Nat.pos_of_ne_zero h0)]
      simp
    obtain ⟨arr1, h1, h2, h3⟩ := intLoop_spec 63 arr p d.Integer
      (lt_of_lt_of_le hI (by norm_num)) (by omega) hpl
    refine ⟨arr1, p - (Nat.digits 10 d.Integer).length, ?_, by omega, by omega, ?_⟩
    · rw [if_neg h0]; exact h1
    · rw [if_neg h0, h3]; rfl

theorem signPart_spec (d : Decimal) (arr : List Nat) (p : Nat)
    (hlen : arr.length = 48) (hp : p ≤ 46) :
    String.signPart d arr (p : Int)
      = some ((if d.Negative then [45] else []) ++ arr.drop (p + 1)) := by
  unfold String.signPart sliceFrom
  have hpl : p < arr.length := by omega
  cases hn : d.Negative
  · simp only [Bool.false_eq_true, if_false]
    rw [if_pos ⟨by omega, by omega⟩]
    have : ((p : Int) + 1).toNat = p + 1 := by omega
    rw [this]; simp
  · simp only [if_true]
    rw [setByte_nat _ _ _ hpl]
    simp only [List.length_set]
    rw [if_pos ⟨by omega, by omega⟩]
    simp only [Int.toNat_ofNat]
    rw [drop_set_self _ _ _ hpl]
    simp

/-- The buffer code of `String` computes the closed form `render`, without a panic and
without using up its fuel, for every value with `Digits ≤ 20`. -/
theorem String_eq_render (d : Decimal) (hD : d.Digits ≤ 20) (hI : d.Integer < 2 ^ 64) :
    String d = some (render d) := by
  obtain ⟨arr1, p1, h1, hl1, hp1, hp1', hd1⟩ := fracPart_spec d hD
  obtain ⟨arr2, p2, h2, hl2, hp2, hd2⟩ := intPart_spec d arr1 p1 hI hl1 hp1 hp1'
  unfold String
  rw [h1]
  simp only
  rw [h2]
  simp only
  rw [signPart_spec d arr2 p2 hl2 hp2, hd2, hd1]
  unfold render text
  by_cases h0 : d.Digits > 0
  · simp [h0, fractionText]
  · simp [h0, fractionText]

/-! ## Lemmas on digit runs -/

theorem lowDigits_length (k : Nat) : ∀ n : Nat, (lowDigits k n).length = k := by
  induction k with
  | zero => intro n; rfl
  | succ k ih => intro n; simp [lowDigits, ih]

theorem lowDigits_digitRun (k : Nat) : ∀ n : Nat, DigitRun (lowDigits k n) := by
  induction k with
  | zero => intro n b hb; simp [lowDigits] at hb
  | succ k ih =>
    intro n b hb
    simp only [lowDigits, List.mem_append, List.mem_singleton] at hb
    rcases hb with hb | hb
    · exact ih _ b hb
    · subst hb; omega

theorem decimalValue_nil : decimalValue [] = 0 := by
  simp [decimalValue]

theorem decimalValue_concat (l : List Nat) (b : Nat) :
    decimalValue (l ++ [b]) = decimalValue l * 10 + (b - 48) := by
  simp [decimalValue, Nat.ofDigits_cons]
  ring

theorem decimalValue_cons (b : Nat) (l : List Nat) :
    decimalValue (b :: l) = (b - 48) * 10 ^ l.length + decimalValue l := by
  simp [decimalValue, Nat.ofDigits_append]
  ring

theorem decimalValue_lowDigits (k : Nat) : ∀ n : Nat,
    decimalValue (lowDigits k n) = n % 10 ^ k := by
  induction k with
  | zero => intro n; simp [lowDigits, decimalValue_nil, Nat.mod_one]
  | succ k ih =>
    intro n
    rw [lowDigits, decimalValue_concat, ih, pow_succ]
    have h1 : n % 10 + 48 - 48 = n % 10 := by omega
    rw [h1, mul_comm (10 ^ k) 10, Nat.mod_mul]
    ring

theorem digitsOf_digitRun (n : Nat) : DigitRun (digitsOf n) := by
  intro b hb
  simp only [digitsOf, List.mem_map, List.mem_reverse] at hb
  obtain ⟨a, ha, rfl⟩ := hb
  have := Nat.digits_lt_base (by norm_num : 1 < 10) ha
  omega

theorem decimalValue_digitsOf (n : Nat) : decimalValue (digitsOf n) = n := by
  have h : ((Nat.digits 10 n).reverse.map (· + 48)).map (· - 48)
      = (Nat.digits 10 n).reverse := by
    rw [List.map_map]
    conv_rhs => rw [← List.map_id (Nat.digits 10 n).reverse]
    apply List.map_congr_left
    intro a _
    simp
  unfold decimalValue digitsOf
  rw [h, List.reverse_reverse, Nat.ofDigits_digits]

theorem numeral_eq (n : Nat) : numeral n = if n = 0 then [48] else digitsOf n := rfl

theorem numeral_digitRun (n : Nat) : DigitRun (numeral n) := by
  rw [numeral_eq]
  split
  · intro b hb
    simp only [List.mem_singleton] at hb
    omega
  · exact digitsOf_digitRun n

theorem decimalValue_numeral (n : Nat) : decimalValue (numeral n) = n := by
  rw [numeral_eq]
  split
  · rename_i h; subst h; simp [decimalValue]
  · exact decimalValue_digitsOf n

theorem digitsOf_length_le (k n : Nat) (h : n < 10 ^ k) : (digitsOf n).length ≤ k := by
  simpa [digitsOf] using digits_length_le k n h

/-- Padding the digits of a number below `10 ^ (k + 1)` to `k + 1` places, one place at a
time. -/
theorem pad_digitsOf_succ (k m : Nat) (h : m < 10 ^ (k + 1)) :
    List.replicate (k + 1 - (digitsOf m).length) 48 ++ digitsOf m
      = (List.replicate (k - (digitsOf (m / 10)).length) 48 ++ digitsOf (m / 10))
          ++ [m % 10 + 48] := by
  rcases Nat.eq_zero_or_pos m with h0 | hpos
  · subst h0
    simp [digitsOf, List.replicate_succ']
  · have hdiv : m / 10 < 10 ^ k := by
      apply Nat.div_lt_of_lt_mul
      rw [pow_succ] at h; omega
    have hl := digitsOf_length_le k (m / 10) hdiv
    rw [digitsOf_pos m hpos]
    have e : k + 1 - (digitsOf (m / 10) ++ [m % 10 + 48]).length
        = k - (digitsOf (m / 10)).length := by
      simp
    rw [e, List.append_assoc]

theorem lowDigits_eq_pad (k : Nat) : ∀ n : Nat,
    lowDigits k n
      = List.replicate (k - (digitsOf (n % 10 ^ k)).length) 48 ++ digitsOf (n % 10 ^ k) := by
  induction k with
  | zero => intro n; simp [lowDigits, Nat.mod_one, digitsOf]
  | succ k ih =>
    intro n
    have hm : n % 10 ^ (k + 1) < 10 ^ (k + 1) := Nat.mod_lt _ (by positivity)
    rw [pad_digitsOf_succ k _ hm, lowDigits, ih]
    have e1 : n % 10 ^ (k + 1) / 10 = n / 10 % 10 ^ k := by
      rw [pow_succ, mul_comm (10 ^ k) 10, Nat.mod_mul_right_div_self]
    have e2 : n % 10 ^ (k + 1) % 10 = n % 10 := by
      apply Nat.mod_mod_of_dvd
      exact dvd_pow_self 10 (by omega)
    rw [e1, e2]

/-- The fraction characters `String` writes are the numeral of `Fraction % 10 ^ Digits`
left-padded with zeros to `Digits` places. -/
theorem lowDigits_eq_leftpad (k n : Nat) (hk : 0 < k) :
    lowDigits k n = List.leftpad k 48 (numeral (n % 10 ^ k)) := by
  rw [lowDigits_eq_pad, numeral_eq, List.leftpad]
  split
  · rename_i h0
    rw [h0]
    obtain ⟨j, rfl⟩ : ∃ j, k = j + 1 := ⟨k - 1, by omega⟩
    simp [digitsOf, List.replicate_succ']
  · rfl

theorem lowDigits_decimalValue (f : List Nat) (h : DigitRun f) :
    lowDigits f.length (decimalValue f) = f := by
  induction f using List.reverseRecOn with
  | nil => rfl
  | append_singleton l b ih =>
    have hb : 48 ≤ b ∧ b ≤ 57 := h b (by simp)
    have hl : DigitRun l := fun x hx => h x (by simp [hx])
    rw [List.length_append, List.length_singleton, lowDigits, decimalValue_concat]
    have e1 : (decimalValue l * 10 + (b - 48)) / 10 = decimalValue l := by omega
    have e2 : (decimalValue l * 10 + (b - 48)) % 10 + 48 = b := by omega
    rw [e1, e2, ih hl]

theorem map_add_sub (l : List Nat) (h : DigitRun l) :
    (l.map (· - 48)).map (· + 48) = l := by
  rw [List.map_map]
  conv_rhs => rw [← List.map_id l]
  apply List.map_congr_left
  intro a ha
  have := h a ha
  simp only [Function.comp_apply, id_eq]
  omega

theorem numeral_decimalValue (a : Nat) (t : List Nat) (h : DigitRun (a :: t))
    (hz : a ≠ 48 ∨ t = []) : numeral (decimalValue (a :: t)) = a :: t := by
  have ha : 48 ≤ a ∧ a ≤ 57 := h a (by simp)
  by_cases h48 : a = 48
  · have ht : t = [] := by
      rcases hz with hz | hz
      · exact absurd h48 hz
      · exact hz
    subst h48 ht
    simp [decimalValue, numeral]
  · have hd : Nat.digits 10 (decimalValue (a :: t)) = ((a :: t).map (· - 48)).reverse := by
      unfold decimalValue
      apply Nat.digits_ofDigits 10 (by norm_num)
      · intro x hx
        simp only [List.mem_reverse, List.mem_map] at hx
        obtain ⟨y, hy, rfl⟩ := hx
        have := h y hy
        omega
      · intro hne
        simp only [List.map_cons, List.reverse_cons]
        rw [List.getLast_append_singleton]
        omega
    have hne : decimalValue (a :: t) ≠ 0 := by
      intro h0
      rw [h0] at hd
      simp at hd
    rw [numeral, if_neg hne, hd, List.reverse_reverse, map_add_sub _ h]

/-! ## Lemmas on the loops of `FromString` -/

theorem fracloop_run (f : List Nat) : ∀ (neg : Bool) (i fr dg : Nat),
    DigitRun f → fr < 2 ^ 64 → dg < 256 →
    FromString.fracloop ⟨neg, i, fr, dg⟩ f
      = (⟨neg, i, (fr * 10 ^ f.length + decimalValue f) % 2 ^ 64, (dg + f.length) % 256⟩,
         none) := by
  induction f with
  | nil =>
    intro neg i fr dg _ hfr hdg
    rw [FromString.fracloop]
    simp only [List.length_nil, pow_zero, mul_one, decimalValue_nil, add_zero]
    rw [Nat.mod_eq_of_lt hfr, Nat.mod_eq_of_lt hdg]
  | cons b f ih =>
    intro neg i fr dg h _ _
    have hb : 48 ≤ b ∧ b ≤ 57 := h b (by simp)
    have hf : DigitRun f := fun x hx => h x (by simp [hx])
    rw [FromString.fracloop, if_pos hb]
    simp only
    rw [ih neg i _ _ hf (Nat.mod_lt _ (by norm_num)) (Nat.mod_lt _ (by norm_num))]
    have e1 : ((fr * 10 + (b - 48)) % 2 ^ 64 * 10 ^ f.length + decimalValue f) % 2 ^ 64
        = (fr * 10 ^ (b :: f).length + decimalValue (b :: f)) % 2 ^ 64 := by
      have hm : (fr * 10 + (b - 48)) % 2 ^ 64 * 10 ^ f.length + decimalValue f
          ≡ (fr * 10 + (b - 48)) * 10 ^ f.length + decimalValue f [MOD 2 ^ 64] :=
        Nat.ModEq.add_right _ (Nat.ModEq.mul_right _ (Nat.mod_modEq _ _))
      have e : fr * 10 ^ (b :: f).length + decimalValue (b :: f)
          = (fr * 10 + (b - 48)) * 10 ^ f.length + decimalValue f := by
        rw [decimalValue_cons, List.length_cons]; ring
      rw [e]
      exact hm
    have e2 : ((dg + 1) % 256 + f.length) % 256 = (dg + (b :: f).length) % 256 := by
      simp only [List.length_cons]; omega
    rw [e1, e2]

theorem intloop_run (ip : List Nat) : ∀ (neg : Bool) (i fr dg : Nat) (rest : List Nat),
    DigitRun ip → i < 2 ^ 64 →
    FromString.intloop ⟨neg, i, fr, dg⟩ (ip ++ rest)
      = FromString.intloop
          ⟨neg, (i * 10 ^ ip.length + decimalValue ip) % 2 ^ 64, fr, dg⟩ rest := by
  induction ip with
  | nil =>
    intro neg i fr dg rest _ hi
    simp only [List.nil_append, List.length_nil, pow_zero, mul_one, decimalValue_nil, add_zero]
    rw [Nat.mod_eq_of_lt hi]
  | cons b ip ih =>
    intro neg i fr dg rest h _
    have hb : 48 ≤ b ∧ b ≤ 57 := h b (by simp)
    have hip : DigitRun ip := fun x hx => h x (by simp [hx])
    rw [List.cons_append, FromString.intloop, if_pos hb]
    simp only
    rw [ih neg _ fr dg rest hip (Nat.mod_lt _ (by norm_num))]
    have e1 : ((i * 10 + (b - 48)) % 2 ^ 64 * 10 ^ ip.length + decimalValue ip) % 2 ^ 64
        = (i * 10 ^ (b :: ip).length + decimalValue (b :: ip)) % 2 ^ 64 := by
      have hm : (i * 10 + (b - 48)) % 2 ^ 64 * 10 ^ ip.length + decimalValue ip
          ≡ (i * 10 + (b - 48)) * 10 ^ ip.length + decimalValue ip [MOD 2 ^ 64] :=
        Nat.ModEq.add_right _ (Nat.ModEq.mul_right _ (Nat.mod_modEq _ _))
      have e : i * 10 ^ (b :: ip).length + decimalValue (b :: ip)
          = (i * 10 + (b - 48)) * 10 ^ ip.length + decimalValue ip := by
        rw [decimalValue_cons, List.length_cons]; ring
      rw [e]
      exact hm
    rw [e1]

/-- What the integer loop does once the digit run is read: stop at the end of the text, or
hand over to the fraction loop at a dot. -/
theorem intloop_tail (neg : Bool) (i : Nat) (fp : Option (List Nat))
    (hfp : DigitRun (fp.getD [])) :
    FromString.intloop ⟨neg, i, 0, 0⟩ (fractionText fp)
      = (⟨neg, i, decimalValue (fp.getD []) % 2 ^ 64, (fp.getD []).length % 256⟩, none) := by
  cases fp with
  | none => simp [fractionText, FromString.intloop, decimalValue_nil]
  | some f =>
    simp only [Option.getD_some, fractionText]
    rw [FromString.intloop, if_neg (by omega), if_pos rfl,
      fracloop_run f neg i 0 0 hfp (by norm_num) (by norm_num)]
    simp

theorem FromString_no_minus (d : Decimal) (s : List Nat) (h : s.head? ≠ some 45) :
    FromString d s = FromString.intloop ⟨false, 0, 0, 0⟩ s := by
  cases s with
  | nil => rfl
  | cons b rest =>
    have hb : b ≠ 45 := by simpa using h
    simp only [FromString]
    rw [if_neg hb]

theorem FromString_minus (d : Decimal) (s : List Nat) :
    FromString d (45 :: s) = FromString.intloop ⟨true, 0, 0, 0⟩ s := by
  simp [FromString]

theorem text_head_of_not_neg (ip : List Nat) (fp : Option (List Nat)) (h : DigitRun ip) :
    (text false ip fp).head? ≠ some 45 := by
  cases ip with
  | nil =>
    cases fp with
    | none => simp [text, fractionText]
    | some f => simp [text, fractionText]
  | cons b t =>
    have hb : 48 ≤ b ∧ b ≤ 57 := h b (by simp)
    simp only [text, Bool.false_eq_true, if_false, List.nil_append, List.cons_append,
      List.head?_cons, ne_eq, Option.some.injEq]
    omega

/-- The result of `FromString` on every text of the grammar, field by field. -/
theorem FromString_text (d : Decimal) (neg : Bool) (ip : List Nat) (fp : Option (List Nat))
    (hip : DigitRun ip) (hfp : DigitRun (fp.getD [])) :
    FromString d (text neg ip fp)
      = (⟨neg, decimalValue ip % 2 ^ 64, decimalValue (fp.getD []) % 2 ^ 64,
          (fp.getD []).length % 256⟩, none) := by
  cases neg with
  | true =>
    have e : text true ip fp
        = 45 :: (ip ++ fractionText fp) := by
      simp [text]
    rw [e, FromString_minus, intloop_run ip true 0 0 0 _ hip (by norm_num)]
    simp only [zero_mul, zero_add]
    exact intloop_tail true _ fp hfp
  | false =>
    rw [FromString_no_minus d _ (text_head_of_not_neg ip fp hip)]
    have e : text false ip fp
        = ip ++ fractionText fp := by
      simp [text]
    rw [e, intloop_run ip false 0 0 0 _ hip (by norm_num)]
    simp only [zero_mul, zero_add]
    exact intloop_tail false _ fp hfp

theorem fracloop_ok (s : List Nat) : ∀ d : Decimal,
    (FromString.fracloop d s).2 = none → DigitRun s := by
  induction s with
  | nil => intro d _ b hb; simp at hb
  | cons b rest ih =>
    intro d h
    rw [FromString.fracloop] at h
    by_cases hb : 48 ≤ b ∧ b ≤ 57
    · rw [if_pos hb] at h
      have hr := ih _ h
      intro x hx
      simp only [List.mem_cons] at hx
      rcases hx with rfl | hx
      · exact hb
      · exact hr x hx
    · rw [if_neg hb] at h
      simp at h

theorem intloop_ok (s : List Nat) : ∀ d : Decimal,
    (FromString.intloop d s).2 = none →
    ∃ (ip : List Nat) (fp : Option (List Nat)),
      DigitRun ip ∧ DigitRun (fp.getD []) ∧
      s = ip ++ fractionText fp := by
  induction s with
  | nil =>
    intro d _
    exact ⟨[], none, by intro b hb; simp at hb, by intro b hb; simp at hb, rfl⟩
  | cons b rest ih =>
    intro d h
    rw [FromString.intloop] at h
    by_cases hb : 48 ≤ b ∧ b ≤ 57
    · rw [if_pos hb] at h
      obtain ⟨ip, fp, h1, h2, h3⟩ := ih _ h
      refine ⟨b :: ip, fp, ?_, h2, by rw [h3]; rfl⟩
      intro x hx
      simp only [List.mem_cons] at hx
      rcases hx with rfl | hx
      · exact hb
      · exact h1 x hx
    · rw [if_neg hb] at h
      by_cases h46 : b = 46
      · rw [if_pos h46] at h
        exact ⟨[], some rest, by intro x hx; simp at hx, fracloop_ok _ d h,
          by simp [h46, fractionText]⟩
      · rw [if_neg h46] at h
        simp at h

theorem decimalValue_lt (l : List Nat) (h : DigitRun l) :
    decimalValue l < 10 ^ l.length := by
  have := Nat.ofDigits_lt_base_pow_length (b := 10) (l := (l.map (· - 48)).reverse)
    (by norm_num) (by
      intro x hx
      simp only [List.mem_reverse, List.mem_map] at hx
      obtain ⟨y, hy, rfl⟩ := hx
      have := h y hy
      omega)
  simpa [decimalValue] using this

theorem FromString_receiver (d r : Decimal) (s : List Nat) :
    FromString d s = FromString r s := rfl

theorem render_eq_referenceFormat (d : Decimal) :
    render d = referenceFormat { d with Fraction := d.Fraction % 10 ^ d.Digits } := by
  unfold render referenceFormat text
  by_cases h0 : d.Digits > 0
  · have hm : d.Fraction % 10 ^ d.Digits % 10 ^ d.Digits = d.Fraction % 10 ^ d.Digits :=
      Nat.mod_mod _ _
    simp only [if_pos h0, fractionText]
    rw [lowDigits_eq_leftpad _ _ h0]
  · simp only [if_neg h0, fractionText]

/-! ## Lemmas on the scalar arithmetic -/

/-- The division of `DivideUint64` when the folded remainder fits in 64 bits. -/
theorem DivideUint64_exact (d : Decimal) (u : Nat) (hD : d.Digits ≤ 19) (hu : u ≠ 0)
    (h : d.Fraction + d.Integer % u * 10 ^ d.Digits < 2 ^ 64) :
    DivideUint64 d u
      = some ⟨d.Negative, d.Integer / u,
          (d.Fraction + d.Integer % u * 10 ^ d.Digits) / u, d.Digits⟩ := by
  unfold DivideUint64
  rw [if_neg hu, pow10_get _ hD]
  simp only
  rw [Nat.mod_eq_of_lt (by omega : d.Integer % u * 10 ^ d.Digits < 2 ^ 64),
    Nat.mod_eq_of_lt h]

theorem divide_value (i f p u : Nat) (hu : u ≠ 0) :
    i / u * p + (f + i % u * p) / u = (i * p + f) / u := by
  have hpos : 0 < u := Nat.pos_of_ne_zero hu
  have e : i * p + f = u * (i / u * p) + (f + i % u * p) := by
    conv_lhs => rw [← Nat.div_add_mod i u]
    ring
  rw [e, Nat.mul_add_div hpos]

theorem grow_spec (k : Nat) : ∀ (fuel : Nat) (d : Decimal) (digits : Nat),
    d.Digits + k = digits → k < fuel → digits < 256 → d.Fraction * 10 ^ k < 2 ^ 64 →
    ToDigits.grow fuel d digits
      = some ⟨d.Negative, d.Integer, d.Fraction * 10 ^ k, digits⟩ := by
  induction k with
  | zero =>
    intro fuel d digits hk hf _ _
    obtain ⟨f, rfl⟩ : ∃ f, fuel = f + 1 := ⟨fuel - 1, by omega⟩
    rw [ToDigits.grow, if_neg (by omega)]
    cases d
    simp_all
  | succ k ih =>
    intro fuel d digits hk hf hdig hfr
    obtain ⟨f, rfl⟩ : ∃ f, fuel = f + 1 := ⟨fuel - 1, by omega⟩
    have e : d.Fraction * 10 ^ (k + 1) = d.Fraction * 10 * 10 ^ k := by ring
    have hpos : 0 < 10 ^ k := by positivity
    have h10 : d.Fraction * 10 < 2 ^ 64 := by
      have : d.Fraction * 10 * 1 ≤ d.Fraction * 10 * 10 ^ k := Nat.mul_le_mul_left _ hpos
      omega
    rw [ToDigits.grow, if_pos (by omega)]
    rw [ih f _ digits (by simp only; omega) (by omega) hdig
      (by simp only; rw [Nat.mod_eq_of_lt h10]; omega)]
    simp only
    rw [Nat.mod_eq_of_lt h10, e]

theorem grow_stop (fuel : Nat) (d : Decimal) (digits : Nat) (h : ¬ d.Digits < digits) :
    ToDigits.grow (fuel + 1) d digits = some d := by
  rw [ToDigits.grow, if_neg h]

theorem shrink_spec (k : Nat) : ∀ (fuel : Nat) (d : Decimal) (digits : Nat),
    digits + k = d.Digits → k < fuel → d.Digits < 256 →
    ToDigits.shrink fuel d digits
      = some ⟨d.Negative, d.Integer, d.Fraction / 10 ^ k, digits⟩ := by
  induction k with
  | zero =>
    intro fuel d digits hk hf _
    obtain ⟨f, rfl⟩ : ∃ f, fuel = f + 1 := ⟨fuel - 1, by omega⟩
    rw [ToDigits.shrink, if_neg (by omega)]
    cases d
    simp_all
  | succ k ih =>
    intro fuel d digits hk hf hdig
    obtain ⟨f, rfl⟩ : ∃ f, fuel = f + 1 := ⟨fuel - 1, by omega⟩
    rw [ToDigits.shrink, if_pos (by omega)]
    rw [ih f _ digits (by simp only; omega) (by omega) (by simp only; omega)]
    simp only
    rw [Nat.div_div_eq_div_mul, pow_succ, mul_comm (10 ^ k) 10]

/-! ## Lemmas on `New` -/

theorem New_unsigned_eq (v : Nat) (h : v < 2 ^ 64) : New.unsigned v = ⟨false, v, 0, 0⟩ := by
  unfold New.unsigned
  rw [Nat.mod_eq_of_lt h]

/-- The signed cases of `New` store sign and absolute value at every input of the type except
the least one of the 8, 16 and 32-bit types. -/
theorem New_signed_eq (w : Nat) (hw : w = 8 ∨ w = 16 ∨ w = 32 ∨ w = 64) (v : Int)
    (hlo : -2 ^ (w - 1) ≤ v) (hhi : v < 2 ^ (w - 1)) (hmin : v ≠ -2 ^ (w - 1) ∨ w = 64) :
    New.signed w v = ⟨decide (v < 0), v.natAbs, 0, 0⟩ := by
  unfold New.signed wrapSigned toUint64
  rcases hw with rfl | rfl | rfl | rfl <;> norm_num at hlo hhi hmin ⊢ <;>
    split <;> simp_all <;> omega

/-! ## The claims -/

/-- C1. Text round trip: for every Decimal `d` with `Digits ≤ 19` and
`Fraction < 10 ^ Digits` (any 64-bit `Integer`, either sign, a set sign with zero magnitude
included), `String` returns a text, and `FromString` of that text on any receiver `r`
returns no error and leaves the receiver equal to `d` in all four fields. -/
theorem C1_text_round_trip (d r : Decimal) (hD : d.Digits ≤ 19)
    (hF : d.Fraction < 10 ^ d.Digits) (hI : d.Integer < 2 ^ 64) :
    ∃ s, String d = some s ∧ FromString r s = (d, none) := by
  refine ⟨render d, String_eq_render d (by omega) hI, ?_⟩
  unfold render
  have hpow : 10 ^ d.Digits ≤ 10 ^ 19 := Nat.pow_le_pow_right (by norm_num) hD
  by_cases h0 : d.Digits > 0
  · rw [if_pos h0, FromString_text r d.Negative (numeral d.Integer)
      (some (lowDigits d.Digits d.Fraction)) (numeral_digitRun _) (lowDigits_digitRun _ _)]
    simp only [Option.getD_some]
    rw [decimalValue_numeral, decimalValue_lowDigits, lowDigits_length,
      Nat.mod_eq_of_lt hI, Nat.mod_eq_of_lt hF,
      Nat.mod_eq_of_lt (lt_of_lt_of_le hF (le_trans hpow (by norm_num))),
      Nat.mod_eq_of_lt (by omega : d.Digits < 256)]
  · have hD0 : d.Digits = 0 := by omega
    have hF0 : d.Fraction = 0 := by
      rw [hD0] at hF
      simpa using hF
    rw [if_neg h0, FromString_text r d.Negative (numeral d.Integer) none
      (numeral_digitRun _) (by intro b hb; simp at hb)]
    simp only [Option.getD_none, decimalValue_nil, List.length_nil, Nat.zero_mod]
    rw [decimalValue_numeral, Nat.mod_eq_of_lt hI]
    cases d
    simp_all

theorem C1_text_round_trip_witness :
    ∃ s, String ⟨true, 0, 123, 4⟩ = some s
      ∧ FromString ⟨false, 7, 7, 7⟩ s = (⟨true, 0, 123, 4⟩, none) :=
  C1_text_round_trip ⟨true, 0, 123, 4⟩ ⟨false, 7, 7, 7⟩ (by decide) (by decide) (by decide)

/-- C2, as stated, fails at `{Integer: 0, Fraction: 1234, Digits: 2}`, a value with
`Digits ≤ 20`: `String` returns `"0.34"`, while the numeral of `Fraction` left-padded to two
places is `"1234"`, so the described format is `"0.1234"`. -/
theorem C2_counterexample :
    String ⟨false, 0, 1234, 2⟩ = some (bytes "0.34")
      ∧ referenceFormat ⟨false, 0, 1234, 2⟩ = bytes "0.1234"
      ∧ String ⟨false, 0, 1234, 2⟩ ≠ some (referenceFormat ⟨false, 0, 1234, 2⟩) := by
  have h1 : String ⟨false, 0, 1234, 2⟩ = some (bytes "0.34") := by decide
  have h2 : referenceFormat ⟨false, 0, 1234, 2⟩ = bytes "0.1234" := by
    simp [referenceFormat, numeral, List.leftpad, bytes]
  refine ⟨h1, h2, ?_⟩
  rw [h1, h2]
  decide

/-- C2, amended. For every Decimal with `Digits ≤ 20`, `String` returns the reference format
of the value whose fraction is `Fraction % 10 ^ Digits`: a `-` exactly when `Negative` is set,
the numeral of `Integer` without leading zeros, and, only when `Digits > 0`, a dot followed
by exactly `Digits` characters, the numeral of `Fraction % 10 ^ Digits` left-padded with
zeros. When `Fraction < 10 ^ Digits` this is the reference format of the value itself. -/
theorem C2_string_format (d : Decimal) (hD : d.Digits ≤ 20) (hI : d.Integer < 2 ^ 64) :
    String d = some (referenceFormat { d with Fraction := d.Fraction % 10 ^ d.Digits })
      ∧ (d.Digits > 0 →
          (List.leftpad d.Digits 48 (numeral (d.Fraction % 10 ^ d.Digits))).length = d.Digits)
      ∧ (d.Fraction < 10 ^ d.Digits → String d = some (referenceFormat d)) := by
  have h := String_eq_render d hD hI
  rw [render_eq_referenceFormat] at h
  refine ⟨h, ?_, ?_⟩
  · intro h0
    rw [← lowDigits_eq_leftpad _ _ h0, lowDigits_length]
  · intro hF
    rw [h, Nat.mod_eq_of_lt hF]

theorem C2_string_format_witness :
    String ⟨false, 123, 120, 3⟩
        = some (referenceFormat
            { (⟨false, 123, 120, 3⟩ : Decimal) with Fraction := 120 % 10 ^ 3 })
      ∧ ((3 : Nat) > 0 → (List.leftpad 3 48 (numeral (120 % 10 ^ 3))).length = 3)
      ∧ (120 < 10 ^ 3 →
          String ⟨false, 123, 120, 3⟩ = some (referenceFormat ⟨false, 123, 120, 3⟩)) :=
  C2_string_format ⟨false, 123, 120, 3⟩ (by decide) (by decide)

/-- C3. `FromString` returns no error exactly on the texts of the grammar: an optional `-`
at position 0, zero or more digits, then optionally one `.` followed by zero or more digits.
So `""`, `".123"`, `"123."` and `"-"` are accepted, and `"123.123.123"`, `"+1"`, `" 1"`,
`"1e5"` and `"1-2"` are rejected. -/
theorem C3_accepts_iff_grammar :
    (∀ (d : Decimal) (s : List Nat), (FromString d s).2 = none ↔ InGrammar s)
      ∧ (∀ d : Decimal,
          (FromString d (bytes "")).2 = none
          ∧ (FromString d (bytes ".123")).2 = none
          ∧ (FromString d (bytes "123.")).2 = none
          ∧ (FromString d (bytes "-")).2 = none
          ∧ (FromString d (bytes "123.123.123")).2 = some (ParseError.fraction (bytes ".123"))
          ∧ (FromString d (bytes "+1")).2 = some (ParseError.integer (bytes "+1"))
          ∧ (FromString d (bytes " 1")).2 = some (ParseError.integer (bytes " 1"))
          ∧ (FromString d (bytes "1e5")).2 = some (ParseError.integer (bytes "e5"))
          ∧ (FromString d (bytes "1-2")).2 = some (ParseError.integer (bytes "-2"))) := by
  constructor
  · intro d s
    constructor
    · intro h
      cases s with
      | nil => exact ⟨false, [], none, by intro b hb; simp at hb, by intro b hb; simp at hb, rfl⟩
      | cons b rest =>
        by_cases hb : b = 45
        · subst hb
          rw [FromString_minus] at h
          obtain ⟨ip, fp, h1, h2, h3⟩ := intloop_ok _ _ h
          exact ⟨true, ip, fp, h1, h2, by simp [text, h3]⟩
        · rw [FromString_no_minus d _ (by simpa using hb)] at h
          obtain ⟨ip, fp, h1, h2, h3⟩ := intloop_ok _ _ h
          exact ⟨false, ip, fp, h1, h2, by simp [text, h3]⟩
    · rintro ⟨neg, ip, fp, h1, h2, rfl⟩
      rw [FromString_text d neg ip fp h1 h2]
  · intro d
    simp only [FromString_receiver d ⟨false, 0, 0, 0⟩]
    decide

/-- C4. `FromString` computes the numeric fields by wrapping base-10 accumulation. On every
text of the grammar (by C3 these are all the accepted texts), whatever the length of its
digit runs, it returns no error, `Negative` says whether the text starts with `-`, `Integer`
is the decimal value of the run before the dot modulo `2 ^ 64`, and `Fraction` is the decimal
value of the run after the dot (0 when the run is empty or there is no dot) modulo `2 ^ 64`.
The empty text gives the all-zero Decimal. -/
theorem C4_wrapping_accumulation (d : Decimal) (neg : Bool) (ip : List Nat)
    (fp : Option (List Nat)) (hip : DigitRun ip) (hfp : DigitRun (fp.getD [])) :
    (FromString d (text neg ip fp)).2 = none
      ∧ (FromString d (text neg ip fp)).1.Negative
          = decide ((text neg ip fp).head? = some 45)
      ∧ (FromString d (text neg ip fp)).1.Integer = decimalValue ip % 2 ^ 64
      ∧ (FromString d (text neg ip fp)).1.Fraction = decimalValue (fp.getD []) % 2 ^ 64
      ∧ FromString d [] = (⟨false, 0, 0, 0⟩, none) := by
  rw [FromString_text d neg ip fp hip hfp]
  refine ⟨rfl, ?_, rfl, rfl, rfl⟩
  cases neg with
  | true => simp [text]
  | false =>
    have := text_head_of_not_neg ip fp hip
    simp [this]

theorem C4_wrapping_accumulation_witness :
    (FromString ⟨true, 1, 2, 3⟩
        (text true (bytes "18446744073709551617") (some (bytes "05")))).2 = none
      ∧ (FromString ⟨true, 1, 2, 3⟩
          (text true (bytes "18446744073709551617") (some (bytes "05")))).1.Negative
          = decide ((text true (bytes "18446744073709551617") (some (bytes "05"))).head?
              = some 45)
      ∧ (FromString ⟨true, 1, 2, 3⟩
          (text true (bytes "18446744073709551617") (some (bytes "05")))).1.Integer
          = decimalValue (bytes "18446744073709551617") % 2 ^ 64
      ∧ (FromString ⟨true, 1, 2, 3⟩
          (text true (bytes "18446744073709551617") (some (bytes "05")))).1.Fraction
          = decimalValue ((some (bytes "05")).getD []) % 2 ^ 64
      ∧ FromString ⟨true, 1, 2, 3⟩ [] = (⟨false, 0, 0, 0⟩, none) :=
  C4_wrapping_accumulation ⟨true, 1, 2, 3⟩ true (bytes "18446744073709551617")
    (some (bytes "05")) (by decide) (by decide)

/-- C5. Exact textual round trip of canonical text: for every text `[-]I[.F]` where `I` is
`"0"` or a non-empty digit run without a leading zero whose value is below `2 ^ 64`, and `F`
(when the dot is present) has between 1 and 19 digits, `FromString` returns no error and
`String` of the result is the same text, byte for byte. -/
theorem C5_canonical_text_round_trip (d : Decimal) (neg : Bool) (ip : List Nat)
    (fp : Option (List Nat)) (hip : DigitRun ip) (hne : ip ≠ [])
    (hlead : ip = [48] ∨ ip.head? ≠ some 48) (hval : decimalValue ip < 2 ^ 64)
    (hfp : DigitRun (fp.getD []))
    (hlen : fp ≠ none → 1 ≤ (fp.getD []).length ∧ (fp.getD []).length ≤ 19) :
    (FromString d (text neg ip fp)).2 = none
      ∧ String (FromString d (text neg ip fp)).1 = some (text neg ip fp) := by
  rw [FromString_text d neg ip fp hip hfp]
  refine ⟨rfl, ?_⟩
  simp only
  have hflen : (fp.getD []).length ≤ 19 := by
    cases fp with
    | none => simp
    | some f => exact (hlen (by simp)).2
  have hfv : decimalValue (fp.getD []) < 2 ^ 64 :=
    lt_of_lt_of_le (decimalValue_lt _ hfp)
      (le_trans (Nat.pow_le_pow_right (by norm_num) hflen) (by norm_num))
  rw [Nat.mod_eq_of_lt hval, Nat.mod_eq_of_lt hfv,
    Nat.mod_eq_of_lt (by omega : (fp.getD []).length < 256)]
  rw [String_eq_render _ (by simpa using (by omega : (fp.getD []).length ≤ 20))
    (by simpa using hval)]
  unfold render
  simp only
  have hnum : numeral (decimalValue ip) = ip := by
    cases ip with
    | nil => exact absurd rfl hne
    | cons a t =>
      apply numeral_decimalValue a t hip
      rcases hlead with h | h
      · right
        have h2 : a = 48 ∧ t = [] := by simpa using h
        exact h2.2
      · left
        simpa using h
  rw [hnum]
  cases fp with
  | none => simp
  | some f =>
    have h1 := (hlen (by simp)).1
    simp only [Option.getD_some] at h1 hfp ⊢
    rw [if_pos (by omega), lowDigits_decimalValue f hfp]

theorem C5_canonical_text_round_trip_witness :
    (FromString ⟨false, 0, 0, 0⟩ (text true (bytes "0") (some (bytes "0120")))).2 = none
      ∧ String (FromString ⟨false, 0, 0, 0⟩ (text true (bytes "0") (some (bytes "0120")))).1
          = some (text true (bytes "0") (some (bytes "0120"))) :=
  C5_canonical_text_round_trip ⟨false, 0, 0, 0⟩ true (bytes "0") (some (bytes "0120"))
    (by decide) (by decide) (by decide) (by simp [decimalValue, bytes]) (by decide) (by decide)

/-- C6. `MultiplyUint64` is an exact scaled multiplication with carry: for every Decimal
with `Digits ≤ 19` and `Fraction < 10 ^ Digits` and every `u` with `Fraction * u < 2 ^ 64` and
`Integer * u + Fraction * u / 10 ^ Digits < 2 ^ 64`, the call returns and the new fields
satisfy `Integer' * 10 ^ Digits + Fraction' = u * (Integer * 10 ^ Digits + Fraction)`, with
`Negative` and `Digits` unchanged. -/
theorem C6_multiply_exact (d : Decimal) (u : Nat) (hD : d.Digits ≤ 19)
    (_hF : d.Fraction < 10 ^ d.Digits) (h1 : d.Fraction * u < 2 ^ 64)
    (h2 : d.Integer * u + d.Fraction * u / 10 ^ d.Digits < 2 ^ 64) :
    ∃ r, MultiplyUint64 d u = some r
      ∧ r.Integer * 10 ^ d.Digits + r.Fraction = u * (d.Integer * 10 ^ d.Digits + d.Fraction)
      ∧ r.Negative = d.Negative ∧ r.Digits = d.Digits := by
  unfold MultiplyUint64
  rw [pow10_get _ hD]
  simp only
  refine ⟨_, rfl, ?_, rfl, rfl⟩
  simp only
  rw [Nat.mod_eq_of_lt h1, Nat.mod_eq_of_lt (lt_of_le_of_lt (Nat.le_add_right _ _) h2),
    Nat.mod_eq_of_lt h2]
  have := Nat.div_add_mod (d.Fraction * u) (10 ^ d.Digits)
  calc (d.Integer * u + d.Fraction * u / 10 ^ d.Digits) * 10 ^ d.Digits
        + d.Fraction * u % 10 ^ d.Digits
      = d.Integer * u * 10 ^ d.Digits
        + (10 ^ d.Digits * (d.Fraction * u / 10 ^ d.Digits)
            + d.Fraction * u % 10 ^ d.Digits) := by ring
    _ = d.Integer * u * 10 ^ d.Digits + d.Fraction * u := by rw [this]
    _ = u * (d.Integer * 10 ^ d.Digits + d.Fraction) := by ring

theorem C6_multiply_exact_witness :
    (∃ r, MultiplyUint64 ⟨false, 123, 456, 3⟩ 1234567890 = some r
      ∧ r.Integer * 10 ^ 3 + r.Fraction = 1234567890 * (123 * 10 ^ 3 + 456)
      ∧ r.Negative = false ∧ r.Digits = 3)
    ∧ MultiplyUint64 ⟨false, 123, 456, 3⟩ 1234567890 = some ⟨false, 152414813427, 840, 3⟩ :=
  ⟨C6_multiply_exact ⟨false, 123, 456, 3⟩ 1234567890 (by decide) (by decide) (by decide)
    (by decide), by decide⟩

/-- C7, as stated, fails at `{Integer: 2, Fraction: 0, Digits: 19}` divided by 3: the
product `Integer % u * pow10[Digits] = 2 * 10 ^ 19` exceeds `2 ^ 64` and wraps, so the result
is `{0, 517751975430149461, 19}` and not `floor(2 * 10 ^ 19 / 3) = 6666666666666666666`. -/
theorem C7_counterexample :
    (19 : Nat) ≤ 19 ∧ (0 : Nat) < 10 ^ 19 ∧ (3 : Nat) ≠ 0
      ∧ DivideUint64 ⟨false, 2, 0, 19⟩ 3 = some ⟨false, 0, 517751975430149461, 19⟩
      ∧ 0 * 10 ^ 19 + 517751975430149461 ≠ (2 * 10 ^ 19 + 0) / 3 := by
  decide

/-- C7, amended. `DivideUint64` is truncating division of the represented value when the
folded remainder fits in 64 bits: for every Decimal with `Digits ≤ 19` and
`Fraction < 10 ^ Digits` and every `u ≠ 0` with
`Fraction + (Integer % u) * 10 ^ Digits < 2 ^ 64`, the call returns and the new fields satisfy
`Integer' * 10 ^ Digits + Fraction' = floor((Integer * 10 ^ Digits + Fraction) / u)`, with
`Negative` and `Digits` unchanged. -/
theorem C7_divide_truncates (d : Decimal) (u : Nat) (hD : d.Digits ≤ 19)
    (_hF : d.Fraction < 10 ^ d.Digits) (hu : u ≠ 0)
    (h : d.Fraction + d.Integer % u * 10 ^ d.Digits < 2 ^ 64) :
    ∃ r, DivideUint64 d u = some r
      ∧ r.Integer * 10 ^ d.Digits + r.Fraction = (d.Integer * 10 ^ d.Digits + d.Fraction) / u
      ∧ r.Negative = d.Negative ∧ r.Digits = d.Digits :=
  ⟨_, DivideUint64_exact d u hD hu h, divide_value _ _ _ _ hu, rfl, rfl⟩

theorem C7_divide_truncates_witness :
    (∃ r, DivideUint64 ⟨false, 123, 0, 1⟩ 2 = some r
      ∧ r.Integer * 10 ^ 1 + r.Fraction = (123 * 10 ^ 1 + 0) / 2
      ∧ r.Negative = false ∧ r.Digits = 1)
    ∧ DivideUint64 ⟨false, 123, 0, 1⟩ 2 = some ⟨false, 61, 5, 1⟩ :=
  ⟨C7_divide_truncates ⟨false, 123, 0, 1⟩ 2 (by decide) (by decide) (by decide) (by decide),
    by decide⟩

/-- C8. `ToDigits` rescales losslessly upward and by truncation downward: for every Decimal
with `Digits ≤ 19` and `Fraction < 10 ^ Digits` and every `n ≤ 19`, `ToDigits n` returns,
leaves `Negative` and `Integer` unchanged, sets `Digits` to `n`, and sets `Fraction` to
`Fraction * 10 ^ (n - Digits)` when `n ≥ Digits` (a value below `2 ^ 64`, so nothing wraps) or
to `floor(Fraction / 10 ^ (Digits - n))` when `n < Digits`. -/
theorem C8_to_digits (d : Decimal) (n : Nat) (hD : d.Digits ≤ 19)
    (hF : d.Fraction < 10 ^ d.Digits) (hn : n ≤ 19) :
    ToDigits d n
        = some ⟨d.Negative, d.Integer,
            if d.Digits ≤ n then d.Fraction * 10 ^ (n - d.Digits)
            else d.Fraction / 10 ^ (d.Digits - n), n⟩
      ∧ (d.Digits ≤ n → d.Fraction * 10 ^ (n - d.Digits) < 2 ^ 64) := by
  have hbound : d.Digits ≤ n → d.Fraction * 10 ^ (n - d.Digits) < 2 ^ 64 := by
    intro hle
    have h1 : d.Fraction * 10 ^ (n - d.Digits) < 10 ^ d.Digits * 10 ^ (n - d.Digits) :=
      Nat.mul_lt_mul_of_pos_right hF (by positivity)
    rw [← pow_add, Nat.add_sub_cancel' hle] at h1
    exact lt_of_lt_of_le h1 (le_trans (Nat.pow_le_pow_right (by norm_num) hn) (by norm_num))
  refine ⟨?_, hbound⟩
  unfold ToDigits
  by_cases hle : d.Digits ≤ n
  · rw [grow_spec (n - d.Digits) 256 d n (by omega) (by omega) (by omega) (hbound hle)]
    simp only
    rw [shrink_spec 0 256 _ n (by simp) (by omega) (by simp only; omega)]
    simp [hle]
  · have hg := grow_stop 255 d n (by omega)
    simp only [Nat.reduceAdd] at hg
    rw [hg]
    simp only
    rw [shrink_spec (d.Digits - n) 256 d n (by omega) (by omega) (by omega)]
    simp [hle]

theorem C8_to_digits_witness :
    (ToDigits ⟨false, 123, 456, 3⟩ 2
        = some ⟨false, 123, if 3 ≤ 2 then 456 * 10 ^ (2 - 3) else 456 / 10 ^ (3 - 2), 2⟩
      ∧ (3 ≤ 2 → 456 * 10 ^ (2 - 3) < 2 ^ 64))
    ∧ ToDigits ⟨false, 123, 456, 3⟩ 2 = some ⟨false, 123, 45, 2⟩ :=
  ⟨C8_to_digits ⟨false, 123, 456, 3⟩ 2 (by decide) (by decide) (by decide), by decide⟩

/-- C9 fails on the code at `New(int8(-128))`, an input within the range of `int8`: the
negation `v = -v` wraps back to -128 in 8 bits and `uint64(v)` sign-extends it, so `Integer`
is `2 ^ 64 - 128`, not the absolute value 128. The same happens at the least `int16` and
`int32`; the `int64` case does store the absolute value at its least input. -/
theorem C9_new_least_int8 :
    ((-2 ^ 7 : Int) ≤ -128 ∧ (-128 : Int) < 2 ^ 7)
      ∧ New (Number.int8 (-128)) = ⟨true, 18446744073709551488, 0, 0⟩
      ∧ (18446744073709551488 : Nat) ≠ (-128 : Int).natAbs
      ∧ New (Number.int16 (-32768)) = ⟨true, 18446744073709518848, 0, 0⟩
      ∧ New (Number.int32 (-2147483648)) = ⟨true, 18446744071562067968, 0, 0⟩
      ∧ New (Number.int64 (-9223372036854775808)) = ⟨true, 9223372036854775808, 0, 0⟩
      ∧ New (Number.int8 (-127)) = ⟨true, 127, 0, 0⟩ := by
  decide

set_option maxRecDepth 100000 in
/-- C10, as stated, fails on the accepted text made of a dot followed by 256 zeros: 256
characters follow the dot, and the 8-bit counter `Digits` has wrapped to 0. -/
theorem C10_counterexample :
    (FromString ⟨false, 0, 0, 0⟩ (text false [] (some (List.replicate 256 48)))).2 = none
      ∧ (FromString ⟨false, 0, 0, 0⟩ (text false [] (some (List.replicate 256 48)))).1.Digits
          = 0
      ∧ (List.replicate 256 48).length = 256 := by
  decide

/-- C10, amended. `FromString` counts one fraction digit per character consumed, in an 8-bit
counter: on every text of the grammar the `Digits` field equals the number of characters that
follow the dot modulo 256 (0 when there is no dot or nothing follows it), hence exactly that
number when fewer than 256 characters follow the dot. -/
theorem C10_digits_count (d : Decimal) (neg : Bool) (ip : List Nat) (fp : Option (List Nat))
    (hip : DigitRun ip) (hfp : DigitRun (fp.getD [])) :
    (FromString d (text neg ip fp)).1.Digits = (fp.getD []).length % 256
      ∧ ((fp.getD []).length < 256 →
          (FromString d (text neg ip fp)).1.Digits = (fp.getD []).length) := by
  rw [FromString_text d neg ip fp hip hfp]
  exact ⟨rfl, fun h => Nat.mod_eq_of_lt h⟩

theorem C10_digits_count_witness :
    ((FromString ⟨false, 0, 0, 0⟩ (text false (bytes "123") (some []))).1.Digits
        = ((some ([] : List Nat)).getD []).length % 256
      ∧ (((some ([] : List Nat)).getD []).length < 256 →
          (FromString ⟨false, 0, 0, 0⟩ (text false (bytes "123") (some []))).1.Digits
            = ((some ([] : List Nat)).getD []).length))
    ∧ (FromString ⟨false, 0, 0, 0⟩ (bytes "123.")).1 = ⟨false, 123, 0, 0⟩ :=
  ⟨C10_digits_count ⟨false, 0, 0, 0⟩ false (bytes "123") (some []) (by decide) (by decide),
    by decide⟩


/-! ## Lemmas on acceptance, errors and the receiver of `FromString` -/

theorem FromString_ok_iff (d : Decimal) (s : List Nat) :
    (FromString d s).2 = none ↔ InGrammar s := by
  constructor
  · intro h
    cases s with
    | nil => exact ⟨false, [], none, by intro b hb; simp at hb, by intro b hb; simp at hb, rfl⟩
    | cons b rest =>
      by_cases hb : b = 45
      · subst hb
        rw [FromString_minus] at h
        obtain ⟨ip, fp, h1, h2, h3⟩ := intloop_ok _ _ h
        exact ⟨true, ip, fp, h1, h2, by simp [text, h3]⟩
      · rw [FromString_no_minus d _ (by simpa using hb)] at h
        obtain ⟨ip, fp, h1, h2, h3⟩ := intloop_ok _ _ h
        exact ⟨false, ip, fp, h1, h2, by simp [text, h3]⟩
  · rintro ⟨neg, ip, fp, h1, h2, rfl⟩
    rw [FromString_text d neg ip fp h1 h2]

theorem FromString_render (d r : Decimal) (hD : d.Digits ≤ 19)
    (hF : d.Fraction < 10 ^ d.Digits) (hI : d.Integer < 2 ^ 64) :
    FromString r (render d) = (d, none) := by
  unfold render
  have hpow : 10 ^ d.Digits ≤ 10 ^ 19 := Nat.pow_le_pow_right (by norm_num) hD
  by_cases h0 : d.Digits > 0
  · rw [if_pos h0, FromString_text r d.Negative (numeral d.Integer)
      (some (lowDigits d.Digits d.Fraction)) (numeral_digitRun _) (lowDigits_digitRun _ _)]
    simp only [Option.getD_some]
    rw [decimalValue_numeral, decimalValue_lowDigits, lowDigits_length,
      Nat.mod_eq_of_lt hI, Nat.mod_eq_of_lt hF,
      Nat.mod_eq_of_lt (lt_of_lt_of_le hF (le_trans hpow (by norm_num))),
      Nat.mod_eq_of_lt (by omega : d.Digits < 256)]
  · have hD0 : d.Digits = 0 := by omega
    have hF0 : d.Fraction = 0 := by
      rw [hD0] at hF
      simpa using hF
    rw [if_neg h0, FromString_text r d.Negative (numeral d.Integer) none
      (numeral_digitRun _) (by intro b hb; simp at hb)]
    simp only [Option.getD_none, decimalValue_nil, List.length_nil, Nat.zero_mod]
    rw [decimalValue_numeral, Nat.mod_eq_of_lt hI]
    cases d
    simp_all

/-- A failure of the fraction loop: the text read so far is a digit run `p`, the offending
byte `c` follows it, and the state is the one reached on `p` alone. -/
theorem fracloop_error (s : List Nat) : ∀ (d : Decimal) (e : ParseError),
    (FromString.fracloop d s).2 = some e →
    ∃ (p : List Nat) (c : Nat) (t : List Nat), s = p ++ c :: t
      ∧ e = ParseError.fraction (c :: t)
      ∧ FromString.fracloop d p = ((FromString.fracloop d s).1, none)
      ∧ ∀ t1, (FromString.fracloop d (p ++ c :: t1)).2 ≠ none := by
  induction s with
  | nil => intro d e h; simp [FromString.fracloop] at h
  | cons b rest ih =>
    intro d e h
    by_cases hb : 48 ≤ b ∧ b ≤ 57
    · rw [FromString.fracloop, if_pos hb] at h
      obtain ⟨p, c, t, h1, h2, h3, h4⟩ := ih _ e h
      refine ⟨b :: p, c, t, by rw [h1]; rfl, h2, ?_, ?_⟩
      · rw [FromString.fracloop, if_pos hb, h3]
        conv_rhs => rw [FromString.fracloop, if_pos hb]
      · intro t1
        rw [List.cons_append, FromString.fracloop, if_pos hb]
        exact h4 t1
    · rw [FromString.fracloop, if_neg hb] at h
      refine ⟨[], b, rest, rfl, by simpa using h.symm, ?_, ?_⟩
      · rw [FromString.fracloop, FromString.fracloop, if_neg hb]
      · intro t1
        rw [List.nil_append, FromString.fracloop, if_neg hb]
        simp

/-- A failure of the integer loop: the same, and the error is the integer one exactly when
no dot was read before the offending byte. -/
theorem intloop_error (s : List Nat) : ∀ (d : Decimal) (e : ParseError),
    (FromString.intloop d s).2 = some e →
    ∃ (p : List Nat) (c : Nat) (t : List Nat), s = p ++ c :: t
      ∧ FromString.intloop d p = ((FromString.intloop d s).1, none)
      ∧ (∀ t1, (FromString.intloop d (p ++ c :: t1)).2 ≠ none)
      ∧ ((e = ParseError.integer (c :: t) ∧ 46 ∉ p)
          ∨ (e = ParseError.fraction (c :: t) ∧ 46 ∈ p)) := by
  induction s with
  | nil => intro d e h; simp [FromString.intloop] at h
  | cons b rest ih =>
    intro d e h
    by_cases hb : 48 ≤ b ∧ b ≤ 57
    · rw [FromString.intloop, if_pos hb] at h
      obtain ⟨p, c, t, h1, h2, h3, h4⟩ := ih _ e h
      refine ⟨b :: p, c, t, by rw [h1]; rfl, ?_, ?_, ?_⟩
      · rw [FromString.intloop, if_pos hb, h2]
        conv_rhs => rw [FromString.intloop, if_pos hb]
      · intro t1
        rw [List.cons_append, FromString.intloop, if_pos hb]
        exact h3 t1
      · have hb46 : (46 : Nat) ≠ b := by omega
        rcases h4 with ⟨h5, h6⟩ | ⟨h5, h6⟩
        · exact Or.inl ⟨h5, by simp [hb46, h6]⟩
        · exact Or.inr ⟨h5, by simp [h6]⟩
    · by_cases h46 : b = 46
      · rw [FromString.intloop, if_neg hb, if_pos h46] at h
        obtain ⟨p, c, t, h1, h2, h3, h4⟩ := fracloop_error rest d e h
        refine ⟨b :: p, c, t, by rw [h1]; rfl, ?_, ?_, Or.inr ⟨h2, by simp [h46]⟩⟩
        · rw [FromString.intloop, if_neg hb, if_pos h46, h3]
          conv_rhs => rw [FromString.intloop, if_neg hb, if_pos h46]
        · intro t1
          rw [List.cons_append, FromString.intloop, if_neg hb, if_pos h46]
          exact h4 t1
      · rw [FromString.intloop, if_neg hb, if_neg h46] at h
        refine ⟨[], b, rest, rfl, ?_, ?_, Or.inl ⟨by simpa using h.symm, by simp⟩⟩
        · rw [FromString.intloop, FromString.intloop, if_neg hb, if_neg h46]
        · intro t1
          rw [List.nil_append, FromString.intloop, if_neg hb, if_neg h46]
          simp

/-- A failure of `FromString`: the text splits into `p`, read without error, and the suffix
`c :: t` that the error carries; the receiver is the one `FromString` leaves on `p`; no
continuation of `p ++ [c]` is accepted; the error is the integer one exactly when `p` holds
no dot. -/
theorem FromString_error (d : Decimal) (s : List Nat) (e : ParseError)
    (h : (FromString d s).2 = some e) :
    ∃ (p : List Nat) (c : Nat) (t : List Nat), s = p ++ c :: t
      ∧ FromString d p = ((FromString d s).1, none)
      ∧ (∀ t1, (FromString d (p ++ c :: t1)).2 ≠ none)
      ∧ ((e = ParseError.integer (c :: t) ∧ 46 ∉ p)
          ∨ (e = ParseError.fraction (c :: t) ∧ 46 ∈ p)) := by
  cases s with
  | nil => simp [FromString] at h
  | cons b rest =>
    by_cases hb : b = 45
    · subst hb
      rw [FromString_minus] at h
      obtain ⟨p, c, t, h1, h2, h3, h4⟩ := intloop_error rest _ e h
      refine ⟨45 :: p, c, t, by rw [h1]; rfl, ?_, ?_, ?_⟩
      · rw [FromString_minus, FromString_minus, h2]
      · intro t1
        rw [List.cons_append, FromString_minus]
        exact h3 t1
      · rcases h4 with ⟨h5, h6⟩ | ⟨h5, h6⟩
        · exact Or.inl ⟨h5, by simp [h6]⟩
        · exact Or.inr ⟨h5, by simp [h6]⟩
    · have hs : (b :: rest).head? ≠ some 45 := by simpa using hb
      rw [FromString_no_minus d _ hs] at h
      obtain ⟨p, c, t, h1, h2, h3, h4⟩ := intloop_error (b :: rest) _ e h
      have hp : p.head? ≠ some 45 := by
        cases p with
        | nil => simp
        | cons x q =>
          simp only [List.cons_append, List.cons.injEq] at h1
          simpa [← h1.1] using hb
      have hpc : ∀ t1, (p ++ c :: t1).head? ≠ some 45 := by
        intro t1
        cases p with
        | nil =>
          simp only [List.nil_append, List.cons.injEq] at h1
          simpa [← h1.1] using hb
        | cons x q =>
          simp only [List.cons_append, List.cons.injEq] at h1
          simpa [← h1.1] using hb
      refine ⟨p, c, t, h1, ?_, ?_, h4⟩
      · rw [FromString_no_minus d _ hp, FromString_no_minus d _ hs, h2]
      · intro t1
        rw [FromString_no_minus d _ (hpc t1)]
        exact h3 t1

/-! ## Lemmas on the length and the first byte of `String`, and on the JSON quotes -/

theorem numeral_ne_nil (n : Nat) : numeral n ≠ [] := by
  rw [numeral_eq]
  split
  · simp
  · rename_i h
    rw [digitsOf_pos n (Nat.pos_of_ne_zero h)]
    simp

theorem numeral_length_le_20 (n : Nat) (h : n < 2 ^ 64) : (numeral n).length ≤ 20 := by
  rw [numeral_eq]
  split
  · simp
  · exact digitsOf_length_le 20 n (lt_of_lt_of_le h (by norm_num))

theorem render_length_le (d : Decimal) (hD : d.Digits ≤ 20) (hI : d.Integer < 2 ^ 64) :
    (render d).length ≤ 42 := by
  have h1 := numeral_length_le_20 d.Integer hI
  have h2 := lowDigits_length d.Digits d.Fraction
  unfold render text
  by_cases h0 : d.Digits > 0
  · rw [if_pos h0]
    simp only [fractionText, List.length_append, List.length_cons]
    split <;> simp <;> omega
  · rw [if_neg h0]
    simp only [fractionText, List.length_append, List.length_nil]
    split <;> simp <;> omega

theorem render_head (d : Decimal) : (render d).head? ≠ some 34 := by
  unfold render text
  cases hn : d.Negative
  · cases hnum : numeral d.Integer with
    | nil => exact absurd hnum (numeral_ne_nil _)
    | cons a t =>
      have ha : 48 ≤ a ∧ a ≤ 57 := numeral_digitRun d.Integer a (by rw [hnum]; simp)
      simp only [Bool.false_eq_true, if_false, List.nil_append, List.cons_append,
        List.head?_cons, ne_eq, Option.some.injEq]
      omega
  · simp

theorem quoted_of_head (s : List Nat) (h : s.head? ≠ some 34) :
    UnmarshalJSON.quoted s = false := by
  unfold UnmarshalJSON.quoted
  rw [decide_eq_false_iff_not]
  rintro ⟨_, h0, _⟩
  cases s with
  | nil => simp at h0
  | cons a t =>
    simp only [List.getElem?_cons_zero, Option.some.injEq] at h0
    simp [h0] at h

theorem quoted_wrap (s : List Nat) : UnmarshalJSON.quoted (34 :: s ++ [34]) = true := by
  unfold UnmarshalJSON.quoted
  rw [decide_eq_true_iff]
  refine ⟨by simp, by simp, ?_⟩
  have e : (34 :: s ++ [34]).length - 1 = s.length + 1 := by simp
  rw [e]
  simp

theorem unquote_wrap (s : List Nat) :
    ((34 :: s ++ [34]).drop 1).take ((34 :: s ++ [34]).length - 2) = s := by
  have e : (34 :: s ++ [34]).length - 2 = s.length := by simp
  rw [e]
  simp

theorem UnmarshalJSON_wrap (d : Decimal) (s : List Nat) :
    UnmarshalJSON d (34 :: s ++ [34]) = FromString d s := by
  unfold UnmarshalJSON
  rw [if_pos (quoted_wrap s), unquote_wrap]

theorem UnmarshalJSON_bare (d : Decimal) (s : List Nat) (h : UnmarshalJSON.quoted s = false) :
    UnmarshalJSON d s = FromString d s := by
  unfold UnmarshalJSON
  rw [h]
  simp

theorem UnmarshalJSON_receiver (d r : Decimal) (data : List Nat) :
    UnmarshalJSON d data = UnmarshalJSON r data := rfl

/-- With a receiver whose `Negative` is unset, `Scan` of an `int64` leaves what `New` builds. -/
theorem Scan_int64_of_not_negative {F : Type} (ops : Float64Ops F) (d : Decimal) (v : Int)
    (h : d.Negative = false) :
    Scan ops d (Value.int64 v) = (New (Number.int64 v), none) := by
  simp only [Scan, New, New.signed, h]
  by_cases hv : v < 0
  · simp [hv]
  · simp [hv]

/-! ## The claims, continued -/

/-- C11. `FromString` resets the receiver before parsing: for every text and any two receiver
states, the call returns the same error or success and leaves the same four fields. On
failure the receiver is not the previous value but the reset state plus what was parsed
before the offending character: it is the value `FromString` yields, from any receiver, on
the part of the text that precedes the suffix the error carries. -/
theorem C11_receiver_reset (d1 d2 : Decimal) (s : List Nat) :
    FromString d1 s = FromString d2 s
      ∧ ∀ e, (FromString d1 s).2 = some e →
          ∃ p, s = p ++ e.suffix ∧ FromString d2 p = ((FromString d1 s).1, none) := by
  refine ⟨rfl, ?_⟩
  intro e h
  obtain ⟨p, c, t, h1, h2, _, h4⟩ := FromString_error d1 s e h
  refine ⟨p, ?_, ?_⟩
  · rcases h4 with ⟨h5, _⟩ | ⟨h5, _⟩ <;> rw [h5, h1] <;> rfl
  · rw [FromString_receiver d2 d1, h2]

theorem C11_receiver_reset_witness :
    FromString ⟨true, 1, 2, 3⟩ (bytes "12.5x7") = FromString ⟨false, 9, 9, 9⟩ (bytes "12.5x7")
      ∧ ∃ p, bytes "12.5x7" = p ++ (ParseError.fraction (bytes "x7")).suffix
          ∧ FromString ⟨false, 9, 9, 9⟩ p
              = ((FromString ⟨true, 1, 2, 3⟩ (bytes "12.5x7")).1, none) :=
  ⟨(C11_receiver_reset ⟨true, 1, 2, 3⟩ ⟨false, 9, 9, 9⟩ (bytes "12.5x7")).1,
    (C11_receiver_reset ⟨true, 1, 2, 3⟩ ⟨false, 9, 9, 9⟩ (bytes "12.5x7")).2
      (ParseError.fraction (bytes "x7")) (by decide)⟩

/-- C12. A `FromString` failure reports where parsing stopped: whenever `FromString` fails,
the text is `p ++ c :: t` where `p` is in the grammar and `p ++ [c]` is not, so `c` is the
first byte violating the grammar; the error carries exactly the suffix `c :: t`; and it is
the integer-part error when no dot precedes `c`, the fraction-part error when a dot precedes
it. -/
theorem C12_error_position (d : Decimal) (s : List Nat) (e : ParseError)
    (h : (FromString d s).2 = some e) :
    ∃ (p : List Nat) (c : Nat) (t : List Nat), s = p ++ c :: t
      ∧ InGrammar p ∧ ¬ InGrammar (p ++ [c])
      ∧ e.suffix = c :: t
      ∧ ((e = ParseError.integer (c :: t) ∧ 46 ∉ p)
          ∨ (e = ParseError.fraction (c :: t) ∧ 46 ∈ p)) := by
  obtain ⟨p, c, t, h1, h2, h3, h4⟩ := FromString_error d s e h
  refine ⟨p, c, t, h1, ?_, ?_, ?_, h4⟩
  · rw [← FromString_ok_iff d p, h2]
  · rw [← FromString_ok_iff d (p ++ [c])]
    exact h3 []
  · rcases h4 with ⟨h5, _⟩ | ⟨h5, _⟩ <;> rw [h5] <;> rfl

theorem C12_error_position_witness :
    ∃ (p : List Nat) (c : Nat) (t : List Nat), bytes "123.123.123" = p ++ c :: t
      ∧ InGrammar p ∧ ¬ InGrammar (p ++ [c])
      ∧ (ParseError.fraction (bytes ".123")).suffix = c :: t
      ∧ ((ParseError.fraction (bytes ".123") = ParseError.integer (c :: t) ∧ 46 ∉ p)
          ∨ (ParseError.fraction (bytes ".123") = ParseError.fraction (c :: t) ∧ 46 ∈ p)) :=
  C12_error_position ⟨false, 0, 0, 0⟩ (bytes "123.123.123")
    (ParseError.fraction (bytes ".123")) (by decide)

/-- C13 fails on the code at `Digits = 20`, the limit the comment on the field documents
("must be less or equal to 20"): the table `pow10` has 20 entries, indices 0 to 19, so the
lookup `pow10[20]` is out of range. The value `{0, 1, 20}` is what `FromString` yields on
`"0.00000000000000000001"`; on it `MultiplyUint64`, `DivideUint64` and `Float64` all end in
the index panic. -/
theorem C13_pow10_index_20 :
    pow10.length = 20
      ∧ FromString ⟨false, 0, 0, 0⟩ (bytes "0.00000000000000000001")
          = (⟨false, 0, 1, 20⟩, none)
      ∧ MultiplyUint64 ⟨false, 0, 1, 20⟩ 1 = none
      ∧ DivideUint64 ⟨false, 0, 1, 20⟩ 1 = none
      ∧ Float64 binary64 ⟨false, 0, 1, 20⟩ = none :=
  ⟨by decide, by decide, by decide, by decide, rfl⟩

/-- C14. `String` is a fixed-capacity formatter with bounded output: for every Decimal with
`Digits ≤ 20` (any 64-bit `Integer`, any `Fraction`, either sign) it returns a text, that is,
no access falls outside the 48-byte buffer, and the text has at most 42 bytes. -/
theorem C14_string_bounded (d : Decimal) (hD : d.Digits ≤ 20) (hI : d.Integer < 2 ^ 64) :
    ∃ s, String d = some s ∧ s.length ≤ 42 :=
  ⟨render d, String_eq_render d hD hI, render_length_le d hD hI⟩

theorem C14_string_bounded_witness :
    ∃ s, String ⟨true, 18446744073709551615, 18446744073709551615, 20⟩ = some s
      ∧ s.length ≤ 42 :=
  C14_string_bounded ⟨true, 18446744073709551615, 18446744073709551615, 20⟩ (by decide)
    (by decide)

/-- C15. JSON round trip keeps the exact value: for every Decimal `d` with `Digits ≤ 19` and
`Fraction < 10 ^ Digits`, `MarshalJSON` returns, without error, exactly the bytes of
`d.String()`, which do not start with a quote; and `UnmarshalJSON`, on any receiver, applied
to those bytes or to those bytes wrapped in one pair of double quotes, returns no error and
leaves a Decimal equal to `d` in all four fields. -/
theorem C15_json_round_trip (d r : Decimal) (hD : d.Digits ≤ 19)
    (hF : d.Fraction < 10 ^ d.Digits) (hI : d.Integer < 2 ^ 64) :
    ∃ s, String d = some s ∧ MarshalJSON d = some (s, none) ∧ s.head? ≠ some 34
      ∧ UnmarshalJSON r s = (d, none)
      ∧ UnmarshalJSON r (34 :: s ++ [34]) = (d, none) := by
  have hs := String_eq_render d (by omega) hI
  refine ⟨render d, hs, ?_, render_head d, ?_, ?_⟩
  · unfold MarshalJSON
    rw [hs]
  · rw [UnmarshalJSON_bare r _ (quoted_of_head _ (render_head d))]
    exact FromString_render d r hD hF hI
  · rw [UnmarshalJSON_wrap]
    exact FromString_render d r hD hF hI

theorem C15_json_round_trip_witness :
    (∃ s, String ⟨false, 123, 1234500, 7⟩ = some s
      ∧ MarshalJSON ⟨false, 123, 1234500, 7⟩ = some (s, none) ∧ s.head? ≠ some 34
      ∧ UnmarshalJSON ⟨true, 9, 9, 9⟩ s = (⟨false, 123, 1234500, 7⟩, none)
      ∧ UnmarshalJSON ⟨true, 9, 9, 9⟩ (34 :: s ++ [34]) = (⟨false, 123, 1234500, 7⟩, none))
    ∧ MarshalJSON ⟨false, 123, 1234500, 7⟩ = some (bytes "123.1234500", none) :=
  ⟨C15_json_round_trip ⟨false, 123, 1234500, 7⟩ ⟨true, 9, 9, 9⟩ (by decide) (by decide)
    (by decide), by decide⟩

/-- C16. `UnmarshalJSON` rejects every JSON value that is not a number or a quoted number: it
returns an error on every text outside the grammar of `FromString` wrapped in one pair of
quotes, on every such text given bare (not itself wrapped in quotes), on every input that
begins with `[` or with `{`, and on the literals `null`, `true` and `false`. -/
theorem C16_unmarshal_rejects (d : Decimal) (t rest : List Nat) :
    (¬ InGrammar t → (UnmarshalJSON d (34 :: t ++ [34])).2 ≠ none)
      ∧ (¬ InGrammar t → UnmarshalJSON.quoted t = false → (UnmarshalJSON d t).2 ≠ none)
      ∧ (UnmarshalJSON d (91 :: rest)).2 = some (ParseError.integer (91 :: rest))
      ∧ (UnmarshalJSON d (123 :: rest)).2 = some (ParseError.integer (123 :: rest))
      ∧ (UnmarshalJSON d (bytes "null")).2 = some (ParseError.integer (bytes "null"))
      ∧ (UnmarshalJSON d (bytes "true")).2 = some (ParseError.integer (bytes "true"))
      ∧ (UnmarshalJSON d (bytes "false")).2 = some (ParseError.integer (bytes "false"))
      ∧ (UnmarshalJSON d (bytes "123.123.123")).2 = some (ParseError.fraction (bytes ".123"))
      ∧ (UnmarshalJSON d (bytes "\"123.123.123\"")).2
          = some (ParseError.fraction (bytes ".123")) := by
  refine ⟨?_, ?_, ?_, ?_, ?_⟩
  · intro h
    rw [UnmarshalJSON_wrap, Ne, FromString_ok_iff]
    exact h
  · intro h hq
    rw [UnmarshalJSON_bare d t hq, Ne, FromString_ok_iff]
    exact h
  · rw [UnmarshalJSON_bare d _ (quoted_of_head _ (by simp)),
      FromString_no_minus d _ (by simp)]
    simp [FromString.intloop]
  · rw [UnmarshalJSON_bare d _ (quoted_of_head _ (by simp)),
      FromString_no_minus d _ (by simp)]
    simp [FromString.intloop]
  · simp only [UnmarshalJSON_receiver d ⟨false, 0, 0, 0⟩]
    decide

theorem C16_unmarshal_rejects_witness :
    (UnmarshalJSON ⟨false, 0, 0, 0⟩ (34 :: bytes "1e5" ++ [34])).2 ≠ none
      ∧ (UnmarshalJSON ⟨false, 0, 0, 0⟩ (bytes "1e5")).2 ≠ none :=
  ⟨(C16_unmarshal_rejects ⟨false, 0, 0, 0⟩ (bytes "1e5") []).1
      (fun h => absurd ((FromString_ok_iff ⟨false, 0, 0, 0⟩ (bytes "1e5")).mpr h) (by decide)),
    (C16_unmarshal_rejects ⟨false, 0, 0, 0⟩ (bytes "1e5") []).2.1
      (fun h => absurd ((FromString_ok_iff ⟨false, 0, 0, 0⟩ (bytes "1e5")).mpr h) (by decide))
      (by decide)⟩

/-- C17 fails on the code when the receiver has `Negative` set and the scanned integer is not
negative: the `int64` case assigns `Negative` only in the branch `v < 0` and the `uint64` case
never assigns it, so the flag keeps its previous value, while `New` of the same integer has
`Negative = false`. -/
theorem C17_scan_keeps_negative :
    Scan binary64 ⟨true, 9, 9, 9⟩ (Value.int64 5) = (⟨true, 5, 0, 0⟩, none)
      ∧ New (Number.int64 5) = ⟨false, 5, 0, 0⟩
      ∧ Scan binary64 ⟨true, 9, 9, 9⟩ (Value.uint64 5) = (⟨true, 5, 0, 0⟩, none)
      ∧ New (Number.uint64 5) = ⟨false, 5, 0, 0⟩
      ∧ Scan binary64 ⟨false, 9, 9, 9⟩ (Value.int64 (-5)) = (New (Number.int64 (-5)), none) := by
  decide

/-- C18, as stated, fails at the nil value: `Scan(nil)` returns no error (and leaves the
receiver as it was), although nil is none of the five supported kinds. -/
theorem C18_counterexample :
    Scan binary64 ⟨true, 9, 9, 9⟩ Value.nil = (⟨true, 9, 9, 9⟩, none) := by
  decide

/-- C18, amended. `Scan` returns an error exactly when the value is of a type other than nil,
`[]byte`, `string`, `float64`, `int64` and `uint64`, or is a `[]byte` or a `string` that
`FromString` rejects. A nil value is not a failure: `Scan` returns no error and leaves the
receiver unchanged. -/
theorem C18_scan_errors {F : Type} (ops : Float64Ops F) (d : Decimal) (v : Value F) :
    ((Scan ops d v).2 ≠ none ↔
        (∃ t, v = Value.other t)
          ∨ (∃ s, (v = Value.bytes s ∨ v = Value.string s) ∧ (FromString d s).2 ≠ none))
      ∧ Scan ops d Value.nil = (d, none) := by
  refine ⟨?_, rfl⟩
  cases v with
  | int64 v => by_cases hv : v < 0 <;> simp [Scan, hv]
  | nil => simp [Scan]
  | bytes v => simp [Scan]
  | string v => simp [Scan]
  | float64 v => simp [Scan]
  | uint64 v => simp [Scan]
  | other t => simp [Scan]

/-- C19 fails on the code when the receiver has `Negative` set and `f` is not below zero:
`FromFloat64` assigns `Negative` only in the branch `f < 0`, so afterwards the flag is
`(f < 0) || previous flag`; it depends on the receiver. The other three fields do not. -/
theorem C19_from_float64_keeps_negative {F : Type} (ops : Float64Ops F) (d : Decimal) (f : F) :
    (FromFloat64 ops d f).Negative = (ops.lt f ops.zero || d.Negative)
      ∧ (FromFloat64 ops ⟨true, d.Integer, d.Fraction, d.Digits⟩ f).Negative = true
      ∧ (FromFloat64 ops d f).Integer = (FromFloat64 ops ⟨false, 0, 0, 0⟩ f).Integer
      ∧ (FromFloat64 ops d f).Fraction = (FromFloat64 ops ⟨false, 0, 0, 0⟩ f).Fraction
      ∧ (FromFloat64 ops d f).Digits = (FromFloat64 ops ⟨false, 0, 0, 0⟩ f).Digits := by
  refine ⟨?_, ?_, rfl, rfl, rfl⟩
  · unfold FromFloat64
    cases ops.lt f ops.zero <;> simp
  · unfold FromFloat64
    cases ops.lt f ops.zero <;> simp

/-! ## Lemmas on the numeric substring of `FromStringFuzzy` -/

theorem isDigit_iff (b : Nat) : FromStringFuzzy.isDigit b = true ↔ 48 ≤ b ∧ b ≤ 57 := by
  simp [FromStringFuzzy.isDigit]

theorem dropSign_of_head (s : List Nat) (h : s.head? ≠ some 45) :
    FromStringFuzzy.dropSign s = s := by
  unfold FromStringFuzzy.dropSign
  split
  · simp at h
  · rfl

theorem dropDot_of_head (s : List Nat) (h : s.head? ≠ some 46) :
    FromStringFuzzy.dropDot s = s := by
  unfold FromStringFuzzy.dropDot
  split
  · simp at h
  · rfl

theorem takeWhile_run (ip : List Nat) (tail : List Nat) (hip : DigitRun ip)
    (ht : ∀ b, tail.head? = some b → ¬ (48 ≤ b ∧ b ≤ 57)) :
    (ip ++ tail).takeWhile FromStringFuzzy.isDigit = ip
      ∧ (ip ++ tail).dropWhile FromStringFuzzy.isDigit = tail := by
  induction ip with
  | nil =>
    cases tail with
    | nil => simp
    | cons b t =>
      have hb : FromStringFuzzy.isDigit b = false := by
        have := ht b rfl
        simpa [FromStringFuzzy.isDigit] using this
      simp [List.takeWhile, List.dropWhile, hb]
  | cons a ip ih =>
    have ha : FromStringFuzzy.isDigit a = true := (isDigit_iff a).mpr (hip a (by simp))
    have hr := ih (fun x hx => hip x (by simp [hx]))
    simp [List.takeWhile, List.dropWhile, ha, hr.1, hr.2]

/-- The text after the optional sign, followed by `q`. -/
theorem body_head (ip : List Nat) (fp : Option (List Nat)) (q : List Nat) (hip : DigitRun ip)
    (hfp : DigitRun (fp.getD [])) (hdigit : ip ≠ [] ∨ fp.getD [] ≠ []) :
    (ip ++ (fractionText fp ++ q)).head? ≠ some 45
      ∧ FromStringFuzzy.startsNumber (ip ++ (fractionText fp ++ q)) = true := by
  cases ip with
  | cons a t =>
    have ha : 48 ≤ a ∧ a ≤ 57 := hip a (by simp)
    refine ⟨by simp; omega, ?_⟩
    unfold FromStringFuzzy.startsNumber
    rw [dropSign_of_head _ (by simp; omega), dropDot_of_head _ (by simp; omega)]
    simpa [FromStringFuzzy.isDigit] using ha
  | nil =>
    cases fp with
    | none => simp at hdigit
    | some f =>
      cases f with
      | nil => simp at hdigit
      | cons a t =>
        have ha : 48 ≤ a ∧ a ≤ 57 := hfp a (by simp)
        refine ⟨by simp [fractionText], ?_⟩
        simp only [List.nil_append, fractionText, List.cons_append]
        unfold FromStringFuzzy.startsNumber
        rw [dropSign_of_head _ (by simp)]
        simpa [FromStringFuzzy.dropDot, FromStringFuzzy.isDigit] using ha

theorem takeNumber_body (ip : List Nat) (fp : Option (List Nat)) (q : List Nat)
    (hip : DigitRun ip) (hfp : DigitRun (fp.getD []))
    (hq : ∀ b, q.head? = some b → ¬ (48 ≤ b ∧ b ≤ 57) ∧ b ≠ 46) :
    (ip ++ (fractionText fp ++ q)).takeWhile FromStringFuzzy.isDigit ++
        (match (ip ++ (fractionText fp ++ q)).dropWhile FromStringFuzzy.isDigit with
         | 46 :: rest => 46 :: rest.takeWhile FromStringFuzzy.isDigit
         | _ => [])
      = ip ++ fractionText fp := by
  have hq1 : ∀ b, q.head? = some b → ¬ (48 ≤ b ∧ b ≤ 57) := fun b hb => (hq b hb).1
  cases fp with
  | none =>
    obtain ⟨h1, h2⟩ := takeWhile_run ip (fractionText none ++ q) hip
      (by simpa [fractionText] using hq1)
    rw [h1, h2]
    simp only [fractionText, List.nil_append, List.append_nil]
    cases q with
    | nil => simp
    | cons b t =>
      have hb : b ≠ 46 := (hq b rfl).2
      split
      · rename_i rest heq
        simp only [List.cons.injEq] at heq
        exact absurd heq.1 hb
      · simp
  | some f =>
    obtain ⟨h1, h2⟩ := takeWhile_run ip (fractionText (some f) ++ q) hip
      (by intro b hb; simp [fractionText] at hb; omega)
    rw [h1, h2]
    simp only [fractionText, List.cons_append]
    rw [(takeWhile_run f q hfp hq1).1]

theorem takeNumber_text (neg : Bool) (ip : List Nat) (fp : Option (List Nat)) (q : List Nat)
    (hip : DigitRun ip) (hfp : DigitRun (fp.getD [])) (hdigit : ip ≠ [] ∨ fp.getD [] ≠ [])
    (hq : ∀ b, q.head? = some b → ¬ (48 ≤ b ∧ b ≤ 57) ∧ b ≠ 46) :
    FromStringFuzzy.startsNumber (text neg ip fp ++ q) = true
      ∧ FromStringFuzzy.takeNumber (text neg ip fp ++ q) = text neg ip fp := by
  obtain ⟨hh, hst⟩ := body_head ip fp q hip hfp hdigit
  have hbody := takeNumber_body ip fp q hip hfp hq
  cases neg with
  | true =>
    have e : text true ip fp ++ q = 45 :: (ip ++ (fractionText fp ++ q)) := by
      simp [text]
    rw [e]
    constructor
    · unfold FromStringFuzzy.startsNumber at hst ⊢
      rw [dropSign_of_head _ hh] at hst
      exact hst
    · unfold FromStringFuzzy.takeNumber
      simp only [List.head?_cons, if_true, FromStringFuzzy.dropSign]
      rw [List.append_assoc, hbody]
      simp [text]
  | false =>
    have e : text false ip fp ++ q = ip ++ (fractionText fp ++ q) := by
      simp [text]
    rw [e]
    refine ⟨hst, ?_⟩
    unfold FromStringFuzzy.takeNumber
    rw [if_neg hh, dropSign_of_head _ hh, List.nil_append, hbody]
    simp [text]

theorem locate_skip (p rest : List Nat)
    (hp : ∀ b ∈ p, ¬ (48 ≤ b ∧ b ≤ 57) ∧ b ≠ 45 ∧ b ≠ 46) :
    FromStringFuzzy.locate (p ++ rest) = FromStringFuzzy.locate rest := by
  induction p with
  | nil => rfl
  | cons b t ih =>
    have hb := hp b (by simp)
    have hs : FromStringFuzzy.startsNumber (b :: (t ++ rest)) = false := by
      unfold FromStringFuzzy.startsNumber
      rw [dropSign_of_head _ (by simpa using hb.2.1), dropDot_of_head _ (by simpa using hb.2.2)]
      simpa [FromStringFuzzy.isDigit] using hb.1
    rw [List.cons_append, FromStringFuzzy.locate, hs]
    simpa using ih (fun x hx => hp x (by simp [hx]))

theorem locate_of_starts (s : List Nat) (h : FromStringFuzzy.startsNumber s = true) :
    FromStringFuzzy.locate s = FromStringFuzzy.takeNumber s := by
  cases s with
  | nil => simp [FromStringFuzzy.startsNumber, FromStringFuzzy.dropSign,
      FromStringFuzzy.dropDot] at h
  | cons b t => rw [FromStringFuzzy.locate, h]; rfl

/-- Where a number starts there is a digit among the first three bytes. -/
theorem digit_of_starts (s : List Nat) (h : FromStringFuzzy.startsNumber s = true) :
    ∃ b ∈ s, 48 ≤ b ∧ b ≤ 57 := by
  unfold FromStringFuzzy.startsNumber at h
  split at h
  · simp at h
  · rename_i b r heq
    have hb : b ∈ FromStringFuzzy.dropDot (FromStringFuzzy.dropSign s) := by
      rw [heq]; simp
    have hsub1 : ∀ l : List Nat, ∀ x ∈ FromStringFuzzy.dropDot l, x ∈ l := by
      intro l x hx
      unfold FromStringFuzzy.dropDot at hx
      split at hx
      · simp [hx]
      · exact hx
    have hsub2 : ∀ l : List Nat, ∀ x ∈ FromStringFuzzy.dropSign l, x ∈ l := by
      intro l x hx
      unfold FromStringFuzzy.dropSign at hx
      split at hx
      · simp [hx]
      · exact hx
    exact ⟨b, hsub2 _ _ (hsub1 _ _ hb), (isDigit_iff b).mp h⟩

theorem locate_no_digit (s : List Nat) (h : ∀ b ∈ s, ¬ (48 ≤ b ∧ b ≤ 57)) :
    FromStringFuzzy.locate s = [] := by
  induction s with
  | nil => rfl
  | cons b t ih =>
    have hs : FromStringFuzzy.startsNumber (b :: t) = false := by
      by_contra hc
      have hc1 : FromStringFuzzy.startsNumber (b :: t) = true := by
        simpa using hc
      obtain ⟨x, hx, hx2⟩ := digit_of_starts _ hc1
      exact h x hx hx2
    rw [FromStringFuzzy.locate, hs]
    simpa using ih (fun x hx => h x (by simp [hx]))

/-- C20. `FromStringFuzzy` parses the first numeric substring and ignores the rest: for every
text `n` of the grammar of `FromString` with at least one digit, every prefix `p` without
digit, `-` or `.`, and every suffix `q` that is empty or starts with a byte other than a
digit or `.`, `FromStringFuzzy` on `p ++ n ++ q` returns no error and yields the Decimal of
`FromString` on `n`; and on every input `z` without any digit it returns no error and yields
the all-zero Decimal. -/
theorem C20_fuzzy_parse (d : Decimal) (neg : Bool) (ip : List Nat) (fp : Option (List Nat))
    (p q z : List Nat) (hip : DigitRun ip) (hfp : DigitRun (fp.getD []))
    (hdigit : ip ≠ [] ∨ fp.getD [] ≠ [])
    (hp : ∀ b ∈ p, ¬ (48 ≤ b ∧ b ≤ 57) ∧ b ≠ 45 ∧ b ≠ 46)
    (hq : ∀ b, q.head? = some b → ¬ (48 ≤ b ∧ b ≤ 57) ∧ b ≠ 46)
    (hz : ∀ b ∈ z, ¬ (48 ≤ b ∧ b ≤ 57)) :
    FromStringFuzzy d (p ++ text neg ip fp ++ q) = FromString d (text neg ip fp)
      ∧ (FromStringFuzzy d (p ++ text neg ip fp ++ q)).2 = none
      ∧ FromStringFuzzy d z = (⟨false, 0, 0, 0⟩, none) := by
  obtain ⟨h1, h2⟩ := takeNumber_text neg ip fp q hip hfp hdigit hq
  have e : FromStringFuzzy d (p ++ text neg ip fp ++ q) = FromString d (text neg ip fp) := by
    unfold FromStringFuzzy
    rw [List.append_assoc, locate_skip p _ hp, locate_of_starts _ h1, h2]
  refine ⟨e, ?_, ?_⟩
  · rw [e, FromString_text d neg ip fp hip hfp]
  · unfold FromStringFuzzy
    rw [locate_no_digit z hz]
    rfl

theorem C20_fuzzy_parse_witness :
    (FromStringFuzzy ⟨true, 9, 9, 9⟩ (bytes "Angle " ++ text true (bytes "12") (some (bytes "30")) ++ bytes " lm")
        = FromString ⟨true, 9, 9, 9⟩ (text true (bytes "12") (some (bytes "30")))
      ∧ (FromStringFuzzy ⟨true, 9, 9, 9⟩
          (bytes "Angle " ++ text true (bytes "12") (some (bytes "30")) ++ bytes " lm")).2 = none
      ∧ FromStringFuzzy ⟨true, 9, 9, 9⟩ (bytes "a-b.c") = (⟨false, 0, 0, 0⟩, none))
    ∧ FromStringFuzzy ⟨true, 9, 9, 9⟩ (bytes "prefix123.123") = (⟨false, 123, 123, 3⟩, none)
    ∧ FromStringFuzzy ⟨true, 9, 9, 9⟩ (bytes "123.123suffix") = (⟨false, 123, 123, 3⟩, none) :=
  ⟨C20_fuzzy_parse ⟨true, 9, 9, 9⟩ true (bytes "12") (some (bytes "30")) (bytes "Angle ")
    (bytes " lm") (bytes "a-b.c") (by decide) (by decide) (by decide) (by decide) (by decide)
    (by decide), by decide, by decide⟩


/-! ## Lemmas for the invariant, the float loop and the inverse of the multiplication -/

/-- The multiplication of `MultiplyUint64` when neither product nor the carry wraps. -/
theorem MultiplyUint64_exact (d : Decimal) (u : Nat) (hD : d.Digits ≤ 19)
    (h1 : d.Fraction * u < 2 ^ 64)
    (h2 : d.Integer * u + d.Fraction * u / 10 ^ d.Digits < 2 ^ 64) :
    MultiplyUint64 d u
      = some ⟨d.Negative, d.Integer * u + d.Fraction * u / 10 ^ d.Digits,
          d.Fraction * u % 10 ^ d.Digits, d.Digits⟩ := by
  unfold MultiplyUint64
  rw [pow10_get _ hD]
  simp only
  rw [Nat.mod_eq_of_lt h1, Nat.mod_eq_of_lt (lt_of_le_of_lt (Nat.le_add_right _ _) h2),
    Nat.mod_eq_of_lt h2]

/-- The quotient `DivideUint64` stores in `Fraction` is below `10 ^ Digits`, wrapped or not. -/
theorem divide_fraction_lt (i f p u : Nat) (hf : f < p) (hu : u ≠ 0) :
    (f + i % u * p % 2 ^ 64) % 2 ^ 64 / u < p := by
  have hpos : 0 < u := Nat.pos_of_ne_zero hu
  have hr : i % u + 1 ≤ u := Nat.mod_lt i hpos
  have h1 : (i % u + 1) * p ≤ u * p := Nat.mul_le_mul_right p hr
  have h2 : (i % u + 1) * p = i % u * p + p := by ring
  have h3 : i % u * p % 2 ^ 64 ≤ i % u * p := Nat.mod_le _ _
  have h4 : (f + i % u * p % 2 ^ 64) % 2 ^ 64 ≤ f + i % u * p % 2 ^ 64 := Nat.mod_le _ _
  apply Nat.div_lt_of_lt_mul
  omega

theorem loop_digits_le {F : Type} (ops : Float64Ops F) (n : Nat) : ∀ (fr : F) (dg : Nat),
    dg + n < 256 →
    dg ≤ (FromFloat64.loop ops n fr dg).2 ∧ (FromFloat64.loop ops n fr dg).2 ≤ dg + n := by
  induction n with
  | zero => intro fr dg _; simp [FromFloat64.loop]
  | succ n ih =>
    intro fr dg h
    have e : (dg + 1) % 256 = dg + 1 := Nat.mod_eq_of_lt (by omega)
    rw [FromFloat64.loop]
    split
    · simp only [e]; omega
    · have := ih (ops.mul fr ops.ten) (dg + 1) (by omega)
      rw [e]
      omega

/-- The loop of `FromFloat64`, entered with at least one iteration left, counts at least one
digit and at most as many as there are iterations left. -/
theorem loop_digits_succ {F : Type} (ops : Float64Ops F) (n : Nat) (fr : F) (dg : Nat)
    (h : dg + n + 1 < 256) :
    dg + 1 ≤ (FromFloat64.loop ops (n + 1) fr dg).2
      ∧ (FromFloat64.loop ops (n + 1) fr dg).2 ≤ dg + n + 1 := by
  have e : (dg + 1) % 256 = dg + 1 := Nat.mod_eq_of_lt (by omega)
  rw [FromFloat64.loop]
  split
  · simp only [e]; omega
  · have := loop_digits_le ops n (ops.mul fr ops.ten) (dg + 1) (by omega)
    rw [e]
    omega

theorem FromFloat64_digits {F : Type} (ops : Float64Ops F) (d : Decimal) (f : F) :
    (FromFloat64 ops d f).Digits
      = (FromFloat64.loop ops (17 + 1) (FromFloat64.fraction ops f) 0).2 := rfl

theorem FromFloat64_fraction {F : Type} (ops : Float64Ops F) (d : Decimal) (f : F) :
    (FromFloat64 ops d f).Fraction
      = ops.toUint64 (FromFloat64.loop ops (17 + 1) (FromFloat64.fraction ops f) 0).1
          % 2 ^ 64 := rfl

/-! ## The claims, concluded -/

/-- C21. Scalar arithmetic maintains the invariant `Fraction < 10 ^ Digits`: for every Decimal
with `Digits ≤ 19`, `MultiplyUint64` returns a value with `Fraction < 10 ^ Digits` for every
`u`; and when moreover `Fraction < 10 ^ Digits`, so do `DivideUint64` for every `u ≠ 0` and
`ToDigits` for every `n ≤ 19`. No hypothesis excludes wrapped intermediate products. -/
theorem C21_fraction_invariant (d : Decimal) (u n : Nat) (hD : d.Digits ≤ 19) :
    (∃ r, MultiplyUint64 d u = some r ∧ r.Fraction < 10 ^ r.Digits)
      ∧ (d.Fraction < 10 ^ d.Digits → u ≠ 0 →
          ∃ r, DivideUint64 d u = some r ∧ r.Fraction < 10 ^ r.Digits)
      ∧ (d.Fraction < 10 ^ d.Digits → n ≤ 19 →
          ∃ r, ToDigits d n = some r ∧ r.Fraction < 10 ^ r.Digits) := by
  refine ⟨?_, ?_, ?_⟩
  · unfold MultiplyUint64
    rw [pow10_get _ hD]
    exact ⟨_, rfl, Nat.mod_lt _ (by positivity)⟩
  · intro hF hu
    unfold DivideUint64
    rw [if_neg hu, pow10_get _ hD]
    exact ⟨_, rfl, divide_fraction_lt _ _ _ _ hF hu⟩
  · intro hF hn
    by_cases hle : d.Digits ≤ n
    · have hb : d.Fraction * 10 ^ (n - d.Digits) < 2 ^ 64 := by
        have h1 : d.Fraction * 10 ^ (n - d.Digits) < 10 ^ d.Digits * 10 ^ (n - d.Digits) :=
          Nat.mul_lt_mul_of_pos_right hF (by positivity)
        rw [← pow_add, Nat.add_sub_cancel' hle] at h1
        exact lt_of_lt_of_le h1
          (le_trans (Nat.pow_le_pow_right (by norm_num) hn) (by norm_num))
      refine ⟨⟨d.Negative, d.Integer, d.Fraction * 10 ^ (n - d.Digits), n⟩, ?_, ?_⟩
      · unfold ToDigits
        rw [grow_spec (n - d.Digits) 256 d n (by omega) (by omega) (by omega) hb]
        simp only
        rw [shrink_spec 0 256 _ n (by simp) (by omega) (by simp only; omega)]
        simp
      · have h1 : d.Fraction * 10 ^ (n - d.Digits) < 10 ^ d.Digits * 10 ^ (n - d.Digits) :=
          Nat.mul_lt_mul_of_pos_right hF (by positivity)
        rw [← pow_add, Nat.add_sub_cancel' hle] at h1
        exact h1
    · refine ⟨⟨d.Negative, d.Integer, d.Fraction / 10 ^ (d.Digits - n), n⟩, ?_, ?_⟩
      · unfold ToDigits
        have hg := grow_stop 255 d n (by omega)
        simp only [Nat.reduceAdd] at hg
        rw [hg]
        simp only
        rw [shrink_spec (d.Digits - n) 256 d n (by omega) (by omega) (by omega)]
      · apply Nat.div_lt_of_lt_mul
        rw [← pow_add, Nat.sub_add_cancel (by omega)]
        exact hF

theorem C21_fraction_invariant_witness :
    (∃ r, MultiplyUint64 ⟨false, 9223372036854775808, 7, 1⟩ 18446744073709551615 = some r
        ∧ r.Fraction < 10 ^ r.Digits)
      ∧ (∃ r, DivideUint64 ⟨false, 2, 0, 19⟩ 3 = some r ∧ r.Fraction < 10 ^ r.Digits)
      ∧ (∃ r, ToDigits ⟨false, 2, 0, 19⟩ 2 = some r ∧ r.Fraction < 10 ^ r.Digits) :=
  ⟨(C21_fraction_invariant ⟨false, 9223372036854775808, 7, 1⟩ 18446744073709551615 0
      (by decide)).1,
    (C21_fraction_invariant ⟨false, 2, 0, 19⟩ 3 2 (by decide)).2.1 (by decide) (by decide),
    (C21_fraction_invariant ⟨false, 2, 0, 19⟩ 3 2 (by decide)).2.2 (by decide) (by decide)⟩

/-- C22. `FromFloat64` always produces between 1 and 18 fraction digits, whatever the
argument and whatever the float operations compute: `1 ≤ Digits ≤ 18`. In particular, when
the fractional remainder `math.Abs(f - float64(d.Integer))` is zero (an integer-valued input
such as 123.0 or 0.0), and `0 * 10 = 0`, `math.Round(0) = 0`, `0 == 0` and `uint64(0) = 0`
as in binary64, the result has `Digits = 1` and `Fraction = 0`. -/
theorem C22_from_float64_digits {F : Type} (ops : Float64Ops F) (d : Decimal) (f : F) :
    1 ≤ (FromFloat64 ops d f).Digits ∧ (FromFloat64 ops d f).Digits ≤ 18
      ∧ (FromFloat64.fraction ops f = ops.zero → ops.mul ops.zero ops.ten = ops.zero →
          ops.round ops.zero = ops.zero → ops.eq ops.zero ops.zero = true →
          ops.toUint64 ops.zero = 0 →
          (FromFloat64 ops d f).Digits = 1 ∧ (FromFloat64 ops d f).Fraction = 0) := by
  have h := loop_digits_succ ops 17 (FromFloat64.fraction ops f) 0 (by norm_num)
  rw [FromFloat64_digits, FromFloat64_fraction]
  refine ⟨by omega, by omega, ?_⟩
  intro hrem hmul hround heq hto
  rw [hrem, FromFloat64.loop, hmul, hround, heq]
  simp [hto]

theorem C22_from_float64_digits_witness :
    1 ≤ (FromFloat64 exactOps ⟨true, 9, 9, 9⟩ 123).Digits
      ∧ (FromFloat64 exactOps ⟨true, 9, 9, 9⟩ 123).Digits ≤ 18
      ∧ (FromFloat64 exactOps ⟨true, 9, 9, 9⟩ 123).Digits = 1
      ∧ (FromFloat64 exactOps ⟨true, 9, 9, 9⟩ 123).Fraction = 0 :=
  ⟨(C22_from_float64_digits exactOps ⟨true, 9, 9, 9⟩ 123).1,
    (C22_from_float64_digits exactOps ⟨true, 9, 9, 9⟩ 123).2.1,
    (C22_from_float64_digits exactOps ⟨true, 9, 9, 9⟩ 123).2.2
      (by
        have h : Int.toNat 123 = 123 := rfl
        norm_num [FromFloat64.fraction, exactOps, h])
      (by norm_num [exactOps]) (by norm_num [exactOps]) (by norm_num [exactOps])
      (by norm_num [exactOps])⟩

/-- C23. `DivideUint64` is exact whenever the folded remainder fits in 64 bits: for every
Decimal with `Digits ≤ 19` and `Fraction < 10 ^ Digits` and every `u ≠ 0` with
`Fraction + (Integer % u) * 10 ^ Digits < 2 ^ 64`, the call returns with
`Integer' = floor(Integer / u)` and
`Fraction' = floor((Fraction + (Integer % u) * 10 ^ Digits) / u)`, `Negative` and `Digits`
unchanged, and therefore
`Integer' * 10 ^ Digits + Fraction' = floor((Integer * 10 ^ Digits + Fraction) / u)`. -/
theorem C23_divide_exact (d : Decimal) (u : Nat) (hD : d.Digits ≤ 19)
    (_hF : d.Fraction < 10 ^ d.Digits) (hu : u ≠ 0)
    (h : d.Fraction + d.Integer % u * 10 ^ d.Digits < 2 ^ 64) :
    DivideUint64 d u
        = some ⟨d.Negative, d.Integer / u,
            (d.Fraction + d.Integer % u * 10 ^ d.Digits) / u, d.Digits⟩
      ∧ d.Integer / u * 10 ^ d.Digits + (d.Fraction + d.Integer % u * 10 ^ d.Digits) / u
          = (d.Integer * 10 ^ d.Digits + d.Fraction) / u :=
  ⟨DivideUint64_exact d u hD hu h, divide_value _ _ _ _ hu⟩

theorem C23_divide_exact_witness :
    DivideUint64 ⟨true, 123, 456, 3⟩ 2
        = some ⟨true, 123 / 2, (456 + 123 % 2 * 10 ^ 3) / 2, 3⟩
      ∧ 123 / 2 * 10 ^ 3 + (456 + 123 % 2 * 10 ^ 3) / 2 = (123 * 10 ^ 3 + 456) / 2 :=
  C23_divide_exact ⟨true, 123, 456, 3⟩ 2 (by decide) (by decide) (by decide) (by decide)

/-- C24. Dividing undoes multiplying by the same scalar: for every Decimal `d` with
`Digits ≤ 19` and `Fraction < 10 ^ Digits` and every `u ≠ 0` with `Fraction * u < 2 ^ 64` and
`Integer * u + floor(Fraction * u / 10 ^ Digits) < 2 ^ 64`, `MultiplyUint64(u)` returns a
value on which `DivideUint64(u)` returns `d`, equal in all four fields; no hypothesis on the
division is needed. -/
theorem C24_divide_undoes_multiply (d : Decimal) (u : Nat) (hD : d.Digits ≤ 19)
    (hF : d.Fraction < 10 ^ d.Digits) (hu : u ≠ 0) (h1 : d.Fraction * u < 2 ^ 64)
    (h2 : d.Integer * u + d.Fraction * u / 10 ^ d.Digits < 2 ^ 64) :
    ∃ m, MultiplyUint64 d u = some m ∧ DivideUint64 m u = some d := by
  have hpos : 0 < u := Nat.pos_of_ne_zero hu
  have hq : d.Fraction * u / 10 ^ d.Digits < u :=
    Nat.div_lt_of_lt_mul (Nat.mul_lt_mul_of_pos_right hF hpos)
  have hmod : (d.Integer * u + d.Fraction * u / 10 ^ d.Digits) % u
      = d.Fraction * u / 10 ^ d.Digits := by
    rw [Nat.add_comm, Nat.add_mul_mod_self_right, Nat.mod_eq_of_lt hq]
  have hdiv : (d.Integer * u + d.Fraction * u / 10 ^ d.Digits) / u = d.Integer := by
    rw [Nat.add_comm, Nat.add_mul_div_right _ _ hpos, Nat.div_eq_of_lt hq, Nat.zero_add]
  have hsum : d.Fraction * u % 10 ^ d.Digits + d.Fraction * u / 10 ^ d.Digits * 10 ^ d.Digits
      = d.Fraction * u := by
    rw [Nat.mul_comm (d.Fraction * u / 10 ^ d.Digits)]
    exact Nat.mod_add_div _ _
  refine ⟨_, MultiplyUint64_exact d u hD h1 h2, ?_⟩
  rw [DivideUint64_exact
    ⟨d.Negative, d.Integer * u + d.Fraction * u / 10 ^ d.Digits,
      d.Fraction * u % 10 ^ d.Digits, d.Digits⟩ u hD hu
    (by simp only; rw [hmod, hsum]; exact h1)]
  simp only
  rw [hmod, hsum, hdiv, Nat.mul_div_cancel _ hpos]

theorem C24_divide_undoes_multiply_witness :
    ∃ m, MultiplyUint64 ⟨true, 123, 456, 3⟩ 1234567890 = some m
      ∧ DivideUint64 m 1234567890 = some ⟨true, 123, 456, 3⟩ :=
  C24_divide_undoes_multiply ⟨true, 123, 456, 3⟩ 1234567890 (by decide) (by decide)
    (by decide) (by decide) (by decide)

end Decimal
